import Mathlib

set_option maxHeartbeats 1000000

namespace NaturalToJson

/-! Shallow embedding of the "natural to JSON" compiler core:
the IR optimizer (`src/optimizer.py`), the code emitter (`src/codegen.py`)
together with the execution semantics of the emitted statements, and the
semantic-analysis / IR-building passes of `src/analyzer_core.py`. -/

/-- A Python scalar value as it occurs in IR instruction argument lists.
`vfloat` carries the decimal literal text: the pipeline never computes with
floats, it only moves them around, so the text is a faithful opaque stand-in
for the `float(text)` value produced by the IR builder. -/
inductive PyVal where
  | vnone
  | vbool (b : Bool)
  | vint (n : Int)
  | vfloat (text : String)
  | vstr (s : String)
deriving DecidableEq, Repr

/-- An IR instruction: the Python dict `{"opcode": ..., "args": [...]}`. -/
structure Instr where
  opcode : String
  args : List PyVal
deriving DecidableEq, Repr

/-- `ins.args[i]` of the Python code.  Python raises `IndexError` on an
out-of-range index; the optimizer only indexes args of instructions whose
opcode it recognises, and every such instruction built by the IR builder has
the needed arity, so we totalise with a `vnone` default. -/
def Instr.arg (ins : Instr) (i : Nat) : PyVal :=
  ins.args.getD i PyVal.vnone

/-- Test for the `IR_SET_PROPERTY` opcode. -/
def isSetProp (ins : Instr) : Bool :=
  ins.opcode == "IR_SET_PROPERTY"

/-- The `(obj_name, key)` pair `(instr["args"][0], instr["args"][1])` used as
the `last_writes` dictionary key in `_remove_redundant_sets`. -/
def setKey (ins : Instr) : PyVal × PyVal :=
  (ins.arg 0, ins.arg 1)

/-- First loop of `_remove_redundant_sets`: `for i, instr in enumerate(...)`
recording `last_writes[(obj_name, key)] = i` for every `IR_SET_PROPERTY`.
`m` is the dictionary built so far and `i` the current index. -/
def lastWritesFrom (m : PyVal × PyVal → Option Nat) (i : Nat) :
    List Instr → (PyVal × PyVal → Option Nat)
  | [] => m
  | ins :: rest =>
    if isSetProp ins then
      lastWritesFrom (fun pk => if pk = setKey ins then some i else m pk) (i + 1) rest
    else
      lastWritesFrom m (i + 1) rest

/-- The completed `last_writes` dictionary of `_remove_redundant_sets`. -/
def last_writes (instructions : List Instr) : PyVal × PyVal → Option Nat :=
  lastWritesFrom (fun _ => none) 0 instructions

/-- Second loop of `_remove_redundant_sets`: rebuild the list, keeping a
`IR_SET_PROPERTY` instruction only when `last_writes.get((obj, key)) == i`,
and keeping every other instruction unconditionally. -/
def filterSetsFrom (lw : PyVal × PyVal → Option Nat) (i : Nat) :
    List Instr → List Instr
  | [] => []
  | ins :: rest =>
    if isSetProp ins then
      if lw (setKey ins) = some i then ins :: filterSetsFrom lw (i + 1) rest
      else filterSetsFrom lw (i + 1) rest
    else ins :: filterSetsFrom lw (i + 1) rest

/-- `_remove_redundant_sets` of `src/optimizer.py`. -/
def remove_redundant_sets (instructions : List Instr) : List Instr :=
  filterSetsFrom (last_writes instructions) 0 instructions

/-- Creation opcodes, as tested by `_group_instructions`. -/
def isCreation (ins : Instr) : Bool :=
  ins.opcode == "IR_CREATE_OBJECT" || ins.opcode == "IR_CREATE_LIST"

/-- Operation opcodes, as tested by `_group_instructions`. -/
def isOperation (ins : Instr) : Bool :=
  ins.opcode == "IR_SET_PROPERTY" || ins.opcode == "IR_APPEND_LIST"

/-- An opcode outside the known set (lands in `others`). -/
def isOther (ins : Instr) : Bool :=
  !isCreation ins && !isOperation ins

/-- The target entity name `instr["args"][0]` used by `_group_instructions`. -/
def entityName (ins : Instr) : PyVal :=
  ins.arg 0

/-- The bucket `ops_by_entity[n]`: the operations whose target is `n`, in
their original relative order (the dict is built by scanning `operations`
once and appending). -/
def opsFor (operations : List Instr) (n : PyVal) : List Instr :=
  operations.filter (fun op => entityName op == n)

/-- The reconstruction loop of `_group_instructions`: for each creation,
emit the creation and then its whole bucket (when the entity has a bucket,
also marking it processed).  Returns the grouped list and the
`processed_entities` set (as a list). -/
def groupLoop (operations : List Instr) : List Instr → List Instr × List PyVal
  | [] => ([], [])
  | c :: rest =>
    let n := entityName c
    let pr := groupLoop operations rest
    if opsFor operations n ≠ [] then (c :: (opsFor operations n ++ pr.1), n :: pr.2)
    else (c :: pr.1, pr.2)

/-- `_group_instructions` of `src/optimizer.py`: partition into creations,
operations and others; bail out (returning the input unchanged) when an
unknown opcode is present; otherwise group each creation with its bucket and
append the orphan operations whose entity was never processed. -/
def group_instructions (instructions : List Instr) : List Instr :=
  let creations := instructions.filter isCreation
  let operations := instructions.filter isOperation
  let others := instructions.filter isOther
  if others ≠ [] then instructions
  else
    let pr := groupLoop operations creations
    pr.1 ++ operations.filter (fun op => decide (¬ entityName op ∈ pr.2))

/-- `optimize_ir` of `src/optimizer.py`: copy (pure here), phase 1, phase 2.
An empty input returns `[]` immediately. -/
def optimize_ir (ir_instructions : List Instr) : List Instr :=
  if ir_instructions = [] then []
  else group_instructions (remove_redundant_sets ir_instructions)

/-! Specification-side description of phase 1: a one-pass filter keeping a
`SET_PROPERTY` exactly when no later instruction writes the same pair. -/

/-- Is there a later `IR_SET_PROPERTY` to the pair `pk` in `l`? -/
def hasLaterSet (pk : PyVal × PyVal) (l : List Instr) : Bool :=
  l.any (fun ins => isSetProp ins && decide (setKey ins = pk))

/-- Direct statement of last-write-wins: keep every non-`SET_PROPERTY`
instruction, and keep a `SET_PROPERTY` exactly when it is the last
occurrence for its `(objectName, key)` pair, in original relative order. -/
def lastWriteFilter : List Instr → List Instr
  | [] => []
  | ins :: rest =>
    if isSetProp ins && hasLaterSet (setKey ins) rest then lastWriteFilter rest
    else ins :: lastWriteFilter rest

/-- Index of the last `IR_SET_PROPERTY` to pair `pk` in a list, if any. -/
def lastSetIdx (pk : PyVal × PyVal) : List Instr → Option Nat
  | [] => none
  | ins :: rest =>
    match lastSetIdx pk rest with
    | some k => some (k + 1)
    | none => if isSetProp ins && decide (setKey ins = pk) then some 0 else none

theorem lastWritesFrom_eq (pk : PyVal × PyVal) :
    ∀ (l : List Instr) (m : PyVal × PyVal → Option Nat) (i : Nat),
      lastWritesFrom m i l pk =
        match lastSetIdx pk l with
        | some k => some (i + k)
        | none => m pk := by
  intro l
  induction l with
  | nil => intro m i; rfl
  | cons ins rest ih =>
    intro m i
    by_cases hset : isSetProp ins
    · simp only [lastWritesFrom, hset, if_pos, lastSetIdx]
      rw [ih]
      cases hrest : lastSetIdx pk rest with
      | some k => simp [hrest]; omega
      | none =>
        by_cases hpk : pk = setKey ins
        · simp [hrest, hset, hpk]
        · have : ¬ (setKey ins = pk) := fun h => hpk h.symm
          simp [hrest, hset, hpk, this]
    · simp only [lastWritesFrom, hset, if_neg, Bool.false_eq_true, not_false_iff, lastSetIdx]
      rw [ih]
      cases hrest : lastSetIdx pk rest with
      | some k => simp [hrest]; omega
      | none => simp [hrest, hset]

theorem lastSetIdx_append (pk : PyVal × PyVal) :
    ∀ (l₁ l₂ : List Instr),
      lastSetIdx pk (l₁ ++ l₂) =
        match lastSetIdx pk l₂ with
        | some k => some (l₁.length + k)
        | none => lastSetIdx pk l₁ := by
  intro l₁
  induction l₁ with
  | nil =>
    intro l₂
    cases h : lastSetIdx pk l₂ <;> simp [h, lastSetIdx]
  | cons ins rest ih =>
    intro l₂
    have hstep : lastSetIdx pk (ins :: rest ++ l₂) =
        match lastSetIdx pk (rest ++ l₂) with
        | some k => some (k + 1)
        | none => if isSetProp ins && decide (setKey ins = pk) then some 0 else none := rfl
    rw [hstep, ih l₂]
    cases h : lastSetIdx pk l₂ with
    | some k =>
      cases hr : lastSetIdx pk rest <;>
        simp [lastSetIdx, hr, List.length_cons, Option.some.injEq] <;> omega
    | none =>
      cases hr : lastSetIdx pk rest <;> simp [lastSetIdx, hr]

theorem lastSetIdx_isSome (pk : PyVal × PyVal) :
    ∀ l : List Instr, (lastSetIdx pk l).isSome = hasLaterSet pk l := by
  intro l
  induction l with
  | nil => rfl
  | cons ins rest ih =>
    simp only [lastSetIdx, hasLaterSet, List.any_cons]
    cases hr : lastSetIdx pk rest with
    | some k =>
      have : hasLaterSet pk rest = true := by
        rw [← ih, hr]; rfl
      simp [hasLaterSet] at this
      simp [this]
    | none =>
      have hfalse : hasLaterSet pk rest = false := by
        rw [← ih, hr]; rfl
      by_cases h : (isSetProp ins && decide (setKey ins = pk)) = true
      · simp [h, hfalse]
      · simp only [Bool.not_eq_true] at h
        simp [h, hfalse]
        simpa [hasLaterSet] using hfalse

theorem filterSetsFrom_eq_lastWriteFilter (instrs : List Instr) :
    ∀ (suf pre : List Instr), instrs = pre ++ suf →
      filterSetsFrom (last_writes instrs) pre.length suf = lastWriteFilter suf := by
  intro suf
  induction suf with
  | nil => intro pre _; rfl
  | cons ins rest ih =>
    intro pre hsplit
    have hlen : (pre ++ [ins]).length = pre.length + 1 := by simp
    have hsplit2 : instrs = (pre ++ [ins]) ++ rest := by simp [hsplit]
    by_cases hset : isSetProp ins
    · have hlast : last_writes instrs (setKey ins) =
          match lastSetIdx (setKey ins) instrs with
          | some k => some k
          | none => none := by
        rw [last_writes, lastWritesFrom_eq]
        cases h : lastSetIdx (setKey ins) instrs <;> simp [h]
      have hidx : lastSetIdx (setKey ins) instrs =
          match lastSetIdx (setKey ins) (ins :: rest) with
          | some k => some (pre.length + k)
          | none => lastSetIdx (setKey ins) pre := by
        rw [hsplit, lastSetIdx_append]
      by_cases hlater : hasLaterSet (setKey ins) rest = true
      · -- a later write exists: the index recorded is strictly larger, so drop
        have hsome : (lastSetIdx (setKey ins) rest).isSome = true := by
          rw [lastSetIdx_isSome, hlater]
        obtain ⟨k, hk⟩ := Option.isSome_iff_exists.mp hsome
        have hcons : lastSetIdx (setKey ins) (ins :: rest) = some (k + 1) := by
          simp [lastSetIdx, hk]
        have hne : last_writes instrs (setKey ins) ≠ some pre.length := by
          rw [hlast, hidx, hcons]
          simp only []
          intro h
          have := Option.some.inj h
          omega
        simp only [filterSetsFrom, hset, if_pos, if_neg hne, lastWriteFilter, hlater,
          Bool.and_true, Bool.and_self]
        have := ih (pre ++ [ins]) hsplit2
        rw [hlen] at this
        simp [hset, hlater, this]
      · -- no later write: the recorded index is exactly this one, so keep
        have hnone : lastSetIdx (setKey ins) rest = none := by
          cases h : lastSetIdx (setKey ins) rest with
          | none => rfl
          | some k =>
            exfalso
            have : (lastSetIdx (setKey ins) rest).isSome = true := by rw [h]; rfl
            rw [lastSetIdx_isSome] at this
            exact hlater this
        have hcons : lastSetIdx (setKey ins) (ins :: rest) = some 0 := by
          simp [lastSetIdx, hnone, hset]
        have heq : last_writes instrs (setKey ins) = some pre.length := by
          rw [hlast, hidx, hcons]
          simp
        simp only [filterSetsFrom, hset, if_pos, if_pos heq, lastWriteFilter]
        have hlatf : hasLaterSet (setKey ins) rest = false := by
          cases h : hasLaterSet (setKey ins) rest with
          | false => rfl
          | true => exact absurd h hlater
        have := ih (pre ++ [ins]) hsplit2
        rw [hlen] at this
        simp [hset, hlatf, this]
    · have hsetf : isSetProp ins = false := by
        cases h : isSetProp ins with
        | false => rfl
        | true => exact absurd h hset
      simp only [filterSetsFrom, hsetf, Bool.false_eq_true, if_neg, lastWriteFilter,
        Bool.false_and, not_false_iff]
      have := ih (pre ++ [ins]) hsplit2
      rw [hlen] at this
      simp [hsetf, this]

/-- Phase 1 computes exactly the one-pass last-write-wins filter. -/
theorem remove_redundant_sets_eq (instrs : List Instr) :
    remove_redundant_sets instrs = lastWriteFilter instrs := by
  have := filterSetsFrom_eq_lastWriteFilter instrs instrs [] rfl
  simpa [remove_redundant_sets] using this

/-! Concrete instruction builders, shaped exactly as the IR builder emits. -/

def mkCreateObject (n : String) : Instr :=
  ⟨"IR_CREATE_OBJECT", [.vstr n]⟩

def mkSetProperty (o k : String) (t v : PyVal) : Instr :=
  ⟨"IR_SET_PROPERTY", [.vstr o, .vstr k, t, v]⟩

def mkCreateList (n : String) : Instr :=
  ⟨"IR_CREATE_LIST", [.vstr n]⟩

def mkAppendList (n : String) (t v : PyVal) : Instr :=
  ⟨"IR_APPEND_LIST", [.vstr n, t, v]⟩

/-! Mutual exclusion of the opcode classes. -/

theorem creation_not_operation {ins : Instr} (h : isCreation ins = true) :
    isOperation ins = false := by
  simp only [isCreation, Bool.or_eq_true, beq_iff_eq] at h
  rcases h with h | h <;> simp [isOperation, h]

theorem creation_not_setProp {ins : Instr} (h : isCreation ins = true) :
    isSetProp ins = false := by
  simp only [isCreation, Bool.or_eq_true, beq_iff_eq] at h
  rcases h with h | h <;> simp [isSetProp, h]

theorem setProp_operation {ins : Instr} (h : isSetProp ins = true) :
    isOperation ins = true := by
  simp only [isSetProp, beq_iff_eq] at h
  simp [isOperation, h]

theorem other_not_setProp {ins : Instr} (h : isOther ins = true) :
    isSetProp ins = false := by
  simp only [isOther, Bool.and_eq_true, Bool.not_eq_true'] at h
  cases hs : isSetProp ins with
  | false => rfl
  | true => rw [setProp_operation hs] at h; exact absurd h.2 (by simp)

theorem known_of_not_other {ins : Instr} (h : isOther ins = false) :
    isCreation ins = true ∨ isOperation ins = true := by
  simp only [isOther, Bool.and_eq_false_iff, Bool.not_eq_false'] at h
  rcases h with h | h
  · exact Or.inl h
  · exact Or.inr h

/-! Structural facts about the last-write-wins filter. -/

theorem lastWriteFilter_sublist :
    ∀ l : List Instr, List.Sublist (lastWriteFilter l) l := by
  intro l
  induction l with
  | nil => exact List.Sublist.refl []
  | cons ins rest ih =>
    by_cases h : (isSetProp ins && hasLaterSet (setKey ins) rest) = true
    · simp only [lastWriteFilter, h, if_pos]
      exact ih.cons ins
    · simp only [lastWriteFilter, h, if_neg, Bool.false_eq_true, not_false_iff]
      exact ih.cons₂ ins

/-- The filter only removes `SET_PROPERTY` instructions, so any filter that
ignores `SET_PROPERTY` instructions commutes with it. -/
theorem lastWriteFilter_filter (p : Instr → Bool)
    (hp : ∀ ins, isSetProp ins = true → p ins = false) :
    ∀ l : List Instr, (lastWriteFilter l).filter p = l.filter p := by
  intro l
  induction l with
  | nil => rfl
  | cons ins rest ih =>
    by_cases h : (isSetProp ins && hasLaterSet (setKey ins) rest) = true
    · have hs : isSetProp ins = true := by
        simp only [Bool.and_eq_true] at h; exact h.1
      simp only [lastWriteFilter, h, if_pos, List.filter_cons, hp ins hs]
      simpa using ih
    · simp only [lastWriteFilter, h, if_neg, Bool.false_eq_true, not_false_iff,
        List.filter_cons]
      cases hq : p ins <;> simp [hq, ih]

/-- Counts of non-`SET_PROPERTY` instructions survive phase 1 unchanged. -/
theorem lastWriteFilter_count {ins : Instr} (h : isSetProp ins = false) :
    ∀ l : List Instr, (lastWriteFilter l).count ins = l.count ins := by
  intro l
  induction l with
  | nil => rfl
  | cons x rest ih =>
    by_cases hx : (isSetProp x && hasLaterSet (setKey x) rest) = true
    · have hs : isSetProp x = true := by
        simp only [Bool.and_eq_true] at hx; exact hx.1
      have hne : x ≠ ins := by
        intro he; rw [he, h] at hs; exact absurd hs (by simp)
      simp only [lastWriteFilter, hx, if_pos, List.count_cons]
      simp [ih, hne, fun he : ins = x => hne he.symm]
    · simp only [lastWriteFilter, hx, if_neg, Bool.false_eq_true, not_false_iff,
        List.count_cons, ih]

/-! Characterisation of the grouping pass. -/

theorem groupLoop_fst (ops : List Instr) :
    ∀ creations : List Instr,
      (groupLoop ops creations).1 =
        creations.flatMap (fun c => c :: opsFor ops (entityName c)) := by
  intro creations
  induction creations with
  | nil => rfl
  | cons c rest ih =>
    by_cases h : opsFor ops (entityName c) = []
    · simp [groupLoop, h, ih, List.flatMap_cons]
    · simp [groupLoop, h, ih, List.flatMap_cons]

theorem groupLoop_snd (ops : List Instr) :
    ∀ (creations : List Instr) (n : PyVal),
      n ∈ (groupLoop ops creations).2 ↔
        (n ∈ creations.map entityName ∧ opsFor ops n ≠ []) := by
  intro creations
  induction creations with
  | nil => intro n; simp [groupLoop]
  | cons c rest ih =>
    intro n
    by_cases h : opsFor ops (entityName c) = []
    · simp only [groupLoop, h, ne_eq, not_true_eq_false, if_neg, not_false_iff,
        List.map_cons, ih n, List.mem_cons]
      constructor
      · rintro ⟨h1, h2⟩
        exact ⟨Or.inr h1, h2⟩
      · rintro ⟨h1 | h1, h2⟩
        · rw [h1] at h2; exact absurd h h2
        · exact ⟨h1, h2⟩
    · simp only [groupLoop, ne_eq, h, not_false_iff, if_pos, List.mem_cons,
        List.map_cons, ih n]
      constructor
      · rintro (rfl | ⟨h1, h2⟩)
        · exact ⟨Or.inl rfl, h⟩
        · exact ⟨Or.inr h1, h2⟩
      · rintro ⟨h1 | h1, h2⟩
        · exact Or.inl h1
        · exact Or.inr ⟨h1, h2⟩

/-- On elements of `ops`, membership in `processed_entities` is the same as
membership among the creations' names (an operation's own bucket is never
empty, since the operation itself is in it). -/
theorem orphan_filter_eq (ops creations : List Instr) :
    ops.filter (fun op => decide (¬ entityName op ∈ (groupLoop ops creations).2)) =
      ops.filter (fun op => decide (¬ entityName op ∈ creations.map entityName)) := by
  apply List.filter_congr
  intro op hop
  simp only [decide_eq_decide]
  rw [groupLoop_snd]
  have hne : opsFor ops (entityName op) ≠ [] := by
    have : op ∈ opsFor ops (entityName op) := by
      simp [opsFor, List.mem_filter, hop]
    exact List.ne_nil_of_mem this
  constructor
  · intro h hmem; exact h ⟨hmem, hne⟩
  · intro h hmem; exact h hmem.1

/-- When no unknown opcode is present, the grouping pass produces each
creation followed by its bucket, then the orphan operations. -/
theorem group_instructions_eq (instrs : List Instr)
    (h : instrs.filter isOther = []) :
    group_instructions instrs =
      ((instrs.filter isCreation).flatMap
          (fun c => c :: opsFor (instrs.filter isOperation) (entityName c)))
        ++ (instrs.filter isOperation).filter
            (fun op => decide (¬ entityName op ∈
              (instrs.filter isCreation).map entityName)) := by
  unfold group_instructions
  simp only [h, ne_eq, not_true_eq_false, if_neg, not_false_iff, if_pos]
  rw [groupLoop_fst, orphan_filter_eq]

/-! Permutation facts about the grouping pass. -/

theorem flatMap_congr_mem {α β : Type} {l : List α} {f g : α → List β}
    (h : ∀ a ∈ l, f a = g a) : l.flatMap f = l.flatMap g := by
  induction l with
  | nil => rfl
  | cons a rest ih =>
    simp only [List.flatMap_cons, h a (List.mem_cons_self a rest)]
    rw [ih (fun b hb => h b (List.mem_cons_of_mem a hb))]

theorem opsFor_filter_ne (ops : List Instr) {n m : PyVal} (hnm : m ≠ n) :
    opsFor (ops.filter (fun op => !(entityName op == n))) m = opsFor ops m := by
  unfold opsFor
  rw [List.filter_filter]
  apply List.filter_congr
  intro op _
  by_cases h : entityName op = m
  · simp [h, hnm]
  · simp [h]

/-- Bucketing by a duplicate-free list of names followed by the leftover
(orphan) operations is a permutation of the operation list. -/
theorem opsPartition_perm :
    ∀ (names : List PyVal) (ops : List Instr), names.Nodup →
      List.Perm
        ((names.flatMap fun n => opsFor ops n)
          ++ ops.filter (fun op => decide (¬ entityName op ∈ names)))
        ops := by
  intro names
  induction names with
  | nil =>
    intro ops _
    simp
  | cons n ns ih =>
    intro ops hnd
    have hn : n ∉ ns := (List.nodup_cons.mp hnd).1
    have hns : ns.Nodup := (List.nodup_cons.mp hnd).2
    set ops2 := ops.filter (fun op => !(entityName op == n)) with hops2
    have ha : ns.flatMap (fun m => opsFor ops m) = ns.flatMap (fun m => opsFor ops2 m) := by
      apply flatMap_congr_mem
      intro m hm
      have : m ≠ n := fun he => hn (he ▸ hm)
      exact (opsFor_filter_ne ops this).symm
    have hb : ops.filter (fun op => decide (¬ entityName op ∈ n :: ns)) =
        ops2.filter (fun op => decide (¬ entityName op ∈ ns)) := by
      rw [hops2, List.filter_filter]
      apply List.filter_congr
      intro op _
      by_cases h1 : entityName op = n <;> by_cases h2 : entityName op ∈ ns <;>
        simp [h1, h2]
    have hstep : (((n :: ns).flatMap fun m => opsFor ops m)
            ++ ops.filter (fun op => decide (¬ entityName op ∈ n :: ns)))
        = opsFor ops n ++ ((ns.flatMap fun m => opsFor ops2 m)
            ++ ops2.filter (fun op => decide (¬ entityName op ∈ ns))) := by
      rw [List.flatMap_cons, ha, hb, List.append_assoc]
    rw [hstep]
    have h1 : List.Perm
        (opsFor ops n ++ ((ns.flatMap fun m => opsFor ops2 m)
          ++ ops2.filter (fun op => decide (¬ entityName op ∈ ns))))
        (opsFor ops n ++ ops2) := List.Perm.append_left _ (ih ops2 hns)
    have h2 : List.Perm (opsFor ops n ++ ops2) ops :=
      List.filter_append_perm (fun op => entityName op == n) ops
    exact h1.trans h2

/-- Interleaving each creation with a block is a permutation of the
creations followed by all blocks in name order. -/
theorem flatMap_cons_perm (f : PyVal → List Instr) :
    ∀ cs : List Instr,
      List.Perm (cs.flatMap fun c => c :: f (entityName c))
        (cs ++ (cs.map entityName).flatMap f) := by
  intro cs
  induction cs with
  | nil => rfl
  | cons c rest ih =>
    simp only [List.flatMap_cons, List.map_cons, List.cons_append]
    refine List.Perm.cons c ?_
    have h1 : List.Perm
        (f (entityName c) ++ rest.flatMap fun c => c :: f (entityName c))
        (f (entityName c) ++ (rest ++ (rest.map entityName).flatMap f)) :=
      List.Perm.append_left _ ih
    have h2 : List.Perm
        ((f (entityName c) ++ rest) ++ (rest.map entityName).flatMap f)
        ((rest ++ f (entityName c)) ++ (rest.map entityName).flatMap f) :=
      List.Perm.append_right _ List.perm_append_comm
    rw [List.append_assoc, List.append_assoc] at h2
    exact h1.trans h2

/-- With no unknown opcodes present, creations followed by operations form a
permutation of the whole list. -/
theorem creations_operations_perm (instrs : List Instr)
    (hoth : instrs.filter isOther = []) :
    List.Perm (instrs.filter isCreation ++ instrs.filter isOperation) instrs := by
  have hcong : instrs.filter (fun x => !isCreation x) = instrs.filter isOperation := by
    apply List.filter_congr
    intro x hx
    have hxo : isOther x = false := by
      have := List.filter_eq_nil_iff.mp hoth x hx
      cases h : isOther x with
      | false => rfl
      | true => exact absurd h this
    rcases known_of_not_other hxo with h | h
    · rw [h, creation_not_operation h]; rfl
    · cases hc : isCreation x with
      | false => rw [h]; rfl
      | true => rw [creation_not_operation hc] at h; exact absurd h (by simp)
  have := List.filter_append_perm isCreation instrs
  rw [hcong] at this
  exact this

/-- The grouping pass permutes its input whenever the creation names are
pairwise distinct. -/
theorem group_instructions_perm_of_nodup (instrs : List Instr)
    (hnd : ((instrs.filter isCreation).map entityName).Nodup) :
    List.Perm (group_instructions instrs) instrs := by
  by_cases hoth : instrs.filter isOther = []
  · rw [group_instructions_eq instrs hoth]
    set creations := instrs.filter isCreation with hc
    set operations := instrs.filter isOperation with ho
    have h1 : List.Perm
        ((creations.flatMap fun c => c :: opsFor operations (entityName c))
          ++ operations.filter
              (fun op => decide (¬ entityName op ∈ creations.map entityName)))
        ((creations ++ (creations.map entityName).flatMap fun n => opsFor operations n)
          ++ operations.filter
              (fun op => decide (¬ entityName op ∈ creations.map entityName))) :=
      List.Perm.append_right _ (flatMap_cons_perm _ creations)
    have h2 : List.Perm
        (creations ++ (((creations.map entityName).flatMap fun n => opsFor operations n)
          ++ operations.filter
              (fun op => decide (¬ entityName op ∈ creations.map entityName))))
        (creations ++ operations) :=
      List.Perm.append_left _ (opsPartition_perm (creations.map entityName) operations hnd)
    rw [← List.append_assoc] at h2
    exact (h1.trans h2).trans (creations_operations_perm instrs hoth)
  · have : group_instructions instrs = instrs := by
      unfold group_instructions
      simp [hoth]
    rw [this]

/-! Uniqueness of write pairs after phase 1, and idempotence of phase 1. -/

/-- Number of `SET_PROPERTY` instructions writing pair `pk`. -/
def setsForPair (pk : PyVal × PyVal) (l : List Instr) : Nat :=
  l.countP (fun ins => isSetProp ins && decide (setKey ins = pk))

/-- Every `(objectName, key)` pair is written at most once. -/
def goodSets (l : List Instr) : Prop :=
  ∀ pk, setsForPair pk l ≤ 1

theorem hasLaterSet_countP (pk : PyVal × PyVal) (l : List Instr) :
    hasLaterSet pk l = false ↔ setsForPair pk l = 0 := by
  rw [hasLaterSet, setsForPair, List.countP_eq_zero]
  constructor
  · intro h x hx
    have := List.any_eq_false.mp h x hx
    simpa using this
  · intro h
    apply List.any_eq_false.mpr
    intro x hx
    simpa using h x hx

theorem lastWriteFilter_goodSets : ∀ l : List Instr, goodSets (lastWriteFilter l) := by
  intro l
  induction l with
  | nil => intro pk; simp [setsForPair, lastWriteFilter]
  | cons ins rest ih =>
    by_cases h : (isSetProp ins && hasLaterSet (setKey ins) rest) = true
    · simp only [lastWriteFilter, h, if_pos]
      exact ih
    · simp only [lastWriteFilter, h, if_neg, Bool.false_eq_true, not_false_iff]
      intro pk
      rw [setsForPair, List.countP_cons]
      by_cases hpk : (isSetProp ins && decide (setKey ins = pk)) = true
      · have hs : isSetProp ins = true := by
          simp only [Bool.and_eq_true] at hpk; exact hpk.1
        have hkey : setKey ins = pk := by
          simp only [Bool.and_eq_true, decide_eq_true_eq] at hpk; exact hpk.2
        have hlater : hasLaterSet (setKey ins) rest = false := by
          cases hl : hasLaterSet (setKey ins) rest with
          | false => rfl
          | true => rw [hs, hl] at h; exact absurd rfl h
        have hzero : setsForPair pk rest = 0 := by
          rw [← hkey]; exact (hasLaterSet_countP _ _).mp hlater
        have hsub : setsForPair pk (lastWriteFilter rest) = 0 := by
          have hle := (lastWriteFilter_sublist rest).countP_le
            (fun ins => isSetProp ins && decide (setKey ins = pk))
          rw [setsForPair] at hzero ⊢
          omega
        rw [setsForPair] at hsub
        simp [hpk, hsub]
      · have hfalse : (isSetProp ins && decide (setKey ins = pk)) = false := by
          cases hv : (isSetProp ins && decide (setKey ins = pk)) with
          | false => rfl
          | true => exact absurd hv hpk
        rw [hfalse]
        simpa [setsForPair] using ih pk

theorem lastWriteFilter_eq_self (l : List Instr) (h : goodSets l) :
    lastWriteFilter l = l := by
  induction l with
  | nil => rfl
  | cons ins rest ih =>
    have htail : goodSets rest := by
      intro pk
      have := h pk
      rw [setsForPair, List.countP_cons] at this
      rw [setsForPair]
      omega
    by_cases hd : (isSetProp ins && hasLaterSet (setKey ins) rest) = true
    · exfalso
      have hs : isSetProp ins = true := by
        simp only [Bool.and_eq_true] at hd; exact hd.1
      have hl : hasLaterSet (setKey ins) rest = true := by
        simp only [Bool.and_eq_true] at hd; exact hd.2
      have hpos : 0 < setsForPair (setKey ins) rest := by
        by_contra hc
        have : setsForPair (setKey ins) rest = 0 := by omega
        rw [← hasLaterSet_countP] at this
        rw [this] at hl
        exact absurd hl (by simp)
      have hbound := h (setKey ins)
      rw [setsForPair, List.countP_cons] at hbound
      have hself : (isSetProp ins && decide (setKey ins = setKey ins)) = true := by
        simp [hs]
      rw [hself] at hbound
      simp only [if_pos] at hbound
      rw [setsForPair] at hpos
      omega
    · simp only [lastWriteFilter, hd, if_neg, Bool.false_eq_true, not_false_iff]
      rw [ih htail]

theorem lastWriteFilter_idem (l : List Instr) :
    lastWriteFilter (lastWriteFilter l) = lastWriteFilter l :=
  lastWriteFilter_eq_self _ (lastWriteFilter_goodSets l)

/-! Further opcode-class exclusivity. -/

theorem operation_not_creation {ins : Instr} (h : isOperation ins = true) :
    isCreation ins = false := by
  simp only [isOperation, Bool.or_eq_true, beq_iff_eq] at h
  rcases h with h | h <;> simp [isCreation, h]

theorem setProp_not_creation {ins : Instr} (h : isSetProp ins = true) :
    isCreation ins = false :=
  operation_not_creation (setProp_operation h)

theorem creation_not_other {ins : Instr} (h : isCreation ins = true) :
    isOther ins = false := by
  simp [isOther, h]

theorem operation_not_other {ins : Instr} (h : isOperation ins = true) :
    isOther ins = false := by
  simp [isOther, h]

theorem setProp_not_other {ins : Instr} (h : isSetProp ins = true) :
    isOther ins = false :=
  operation_not_other (setProp_operation h)

/-! Structure of the grouped output, used for idempotence. -/

theorem filter_flatMap_list {α β : Type} (l : List α) (f : α → List β) (p : β → Bool) :
    (l.flatMap f).filter p = l.flatMap fun a => (f a).filter p := by
  induction l with
  | nil => rfl
  | cons a rest ih => simp [List.flatMap_cons, List.filter_append, ih]

theorem flatMap_ite_nil {β : Type} (r : List β) :
    ∀ (ns : List PyVal) (t : PyVal), t ∉ ns →
      (ns.flatMap fun m => if m = t then r else []) = [] := by
  intro ns
  induction ns with
  | nil => intro t _; rfl
  | cons n rest ih =>
    intro t ht
    have h1 : n ≠ t := fun he => ht (he ▸ List.mem_cons_self n rest)
    have h2 : t ∉ rest := fun hm => ht (List.mem_cons_of_mem n hm)
    simp [List.flatMap_cons, h1, ih t h2]

theorem flatMap_ite_unique {β : Type} (r : List β) :
    ∀ (ns : List PyVal), ns.Nodup → ∀ t ∈ ns,
      (ns.flatMap fun m => if m = t then r else []) = r := by
  intro ns
  induction ns with
  | nil => intro _ t ht; exact absurd ht (List.not_mem_nil t)
  | cons n rest ih =>
    intro hnd t ht
    have hn : n ∉ rest := (List.nodup_cons.mp hnd).1
    have hrest : rest.Nodup := (List.nodup_cons.mp hnd).2
    rcases List.mem_cons.mp ht with rfl | hmem
    · simp [List.flatMap_cons, flatMap_ite_nil r rest t hn]
    · have hne : n ≠ t := fun he => hn (he ▸ hmem)
      simp [List.flatMap_cons, hne, ih hrest t hmem]

theorem opsFor_append (a b : List Instr) (t : PyVal) :
    opsFor (a ++ b) t = opsFor a t ++ opsFor b t := by
  unfold opsFor
  rw [List.filter_append]

theorem opsFor_flatMap {α : Type} (l : List α) (f : α → List Instr) (t : PyVal) :
    opsFor (l.flatMap f) t = l.flatMap fun a => opsFor (f a) t := by
  unfold opsFor
  rw [filter_flatMap_list]

theorem opsFor_opsFor (ops : List Instr) (m t : PyVal) :
    opsFor (opsFor ops m) t = if m = t then opsFor ops t else [] := by
  unfold opsFor
  rw [List.filter_filter]
  by_cases h : m = t
  · subst h
    rw [if_pos rfl]
    apply List.filter_congr
    intro op _
    by_cases he : entityName op = m <;> simp [he]
  · rw [if_neg h, List.filter_eq_nil_iff]
    intro op _
    by_cases he : entityName op = t
    · have hm : entityName op ≠ m := fun hh => h (hh ▸ he)
      simp [he, hm]
      exact fun hh => h hh.symm
    · simp [he]

/-- The creations of the grouped output are exactly the input creations. -/
theorem grouped_filter_creation (z : List Instr) (hoth : z.filter isOther = []) :
    (group_instructions z).filter isCreation = z.filter isCreation := by
  rw [group_instructions_eq z hoth, List.filter_append, filter_flatMap_list]
  have h1 : ((z.filter isCreation).flatMap
        fun c => (c :: opsFor (z.filter isOperation) (entityName c)).filter isCreation)
      = (z.filter isCreation).flatMap fun c => [c] := by
    apply flatMap_congr_mem
    intro c hc
    have hcre : isCreation c = true := (List.mem_filter.mp hc).2
    rw [List.filter_cons, if_pos hcre]
    congr 1
    rw [List.filter_eq_nil_iff]
    intro op hop
    have : isOperation op = true :=
      (List.mem_filter.mp (List.mem_of_mem_filter hop)).2
    simp [operation_not_creation this]
  have h2 : ((z.filter isOperation).filter
        (fun op => decide (¬ entityName op ∈ (z.filter isCreation).map entityName))).filter
          isCreation = [] := by
    rw [List.filter_eq_nil_iff]
    intro op hop
    have : isOperation op = true :=
      (List.mem_filter.mp (List.mem_of_mem_filter hop)).2
    simp [operation_not_creation this]
  rw [h1, h2, List.append_nil]
  induction (z.filter isCreation) with
  | nil => rfl
  | cons c rest ih => simp [List.flatMap_cons, ih]

/-- The operations of the grouped output: the buckets in creation order,
then the orphans. -/
theorem grouped_filter_operation (z : List Instr) (hoth : z.filter isOther = []) :
    (group_instructions z).filter isOperation =
      ((z.filter isCreation).flatMap
          fun c => opsFor (z.filter isOperation) (entityName c))
        ++ (z.filter isOperation).filter
            (fun op => decide (¬ entityName op ∈ (z.filter isCreation).map entityName)) := by
  rw [group_instructions_eq z hoth, List.filter_append, filter_flatMap_list]
  have h1 : ((z.filter isCreation).flatMap
        fun c => (c :: opsFor (z.filter isOperation) (entityName c)).filter isOperation)
      = (z.filter isCreation).flatMap
          fun c => opsFor (z.filter isOperation) (entityName c) := by
    apply flatMap_congr_mem
    intro c hc
    have hcre : isCreation c = true := (List.mem_filter.mp hc).2
    rw [List.filter_cons, if_neg (by simp [creation_not_operation hcre])]
    rw [List.filter_eq_self]
    intro op hop
    exact (List.mem_filter.mp (List.mem_of_mem_filter hop)).2
  have h2 : ((z.filter isOperation).filter
        (fun op => decide (¬ entityName op ∈ (z.filter isCreation).map entityName))).filter
          isOperation =
      (z.filter isOperation).filter
        (fun op => decide (¬ entityName op ∈ (z.filter isCreation).map entityName)) := by
    rw [List.filter_eq_self]
    intro op hop
    exact (List.mem_filter.mp (List.mem_of_mem_filter hop)).2
  rw [h1, h2]

/-- No unknown opcode appears in the grouped output. -/
theorem grouped_filter_other (z : List Instr) (hoth : z.filter isOther = []) :
    (group_instructions z).filter isOther = [] := by
  rw [group_instructions_eq z hoth, List.filter_append, filter_flatMap_list]
  have h1 : ((z.filter isCreation).flatMap
        fun c => (c :: opsFor (z.filter isOperation) (entityName c)).filter isOther)
      = (z.filter isCreation).flatMap fun _ => ([] : List Instr) := by
    apply flatMap_congr_mem
    intro c hc
    have hcre : isCreation c = true := (List.mem_filter.mp hc).2
    rw [List.filter_cons, if_neg (by simp [creation_not_other hcre])]
    rw [List.filter_eq_nil_iff]
    intro op hop
    have : isOperation op = true :=
      (List.mem_filter.mp (List.mem_of_mem_filter hop)).2
    simp [operation_not_other this]
  have h2 : ((z.filter isOperation).filter
        (fun op => decide (¬ entityName op ∈ (z.filter isCreation).map entityName))).filter
          isOther = [] := by
    rw [List.filter_eq_nil_iff]
    intro op hop
    have : isOperation op = true :=
      (List.mem_filter.mp (List.mem_of_mem_filter hop)).2
    simp [operation_not_other this]
  rw [h1, h2, List.append_nil, List.flatMap_eq_nil_iff]
  intro _ _
  rfl

/-- Grouping does not change the per-entity operation subsequences. -/
theorem grouped_opsFor (z : List Instr) (hoth : z.filter isOther = [])
    (hnd : ((z.filter isCreation).map entityName).Nodup) (t : PyVal) :
    opsFor ((group_instructions z).filter isOperation) t =
      opsFor (z.filter isOperation) t := by
  rw [grouped_filter_operation z hoth, opsFor_append, opsFor_flatMap]
  have hbucket : ((z.filter isCreation).flatMap
        fun c => opsFor (opsFor (z.filter isOperation) (entityName c)) t)
      = ((z.filter isCreation).map entityName).flatMap
          fun m => if m = t then opsFor (z.filter isOperation) t else [] := by
    rw [List.flatMap_map]
    apply flatMap_congr_mem
    intro c _
    exact opsFor_opsFor (z.filter isOperation) (entityName c) t
  rw [hbucket]
  by_cases ht : t ∈ (z.filter isCreation).map entityName
  · rw [flatMap_ite_unique _ _ hnd t ht]
    have horph : opsFor ((z.filter isOperation).filter
          (fun op => decide (¬ entityName op ∈ (z.filter isCreation).map entityName))) t
        = [] := by
      unfold opsFor
      rw [List.filter_filter, List.filter_eq_nil_iff]
      intro op _
      by_cases he : entityName op = t
      · simp [he, ht]
      · simp [he]
    rw [horph, List.append_nil]
  · rw [flatMap_ite_nil _ _ t ht, List.nil_append]
    unfold opsFor
    rw [List.filter_filter]
    apply List.filter_congr
    intro op _
    by_cases he : entityName op = t
    · simp [he, ht]
    · simp [he]

/-- Grouping does not change the orphan operations either. -/
theorem grouped_orphans (z : List Instr) (hoth : z.filter isOther = []) :
    ((group_instructions z).filter isOperation).filter
        (fun op => decide (¬ entityName op ∈ (z.filter isCreation).map entityName)) =
      (z.filter isOperation).filter
        (fun op => decide (¬ entityName op ∈ (z.filter isCreation).map entityName)) := by
  rw [grouped_filter_operation z hoth, List.filter_append, filter_flatMap_list]
  have h1 : ((z.filter isCreation).flatMap
        fun c => (opsFor (z.filter isOperation) (entityName c)).filter
          (fun op => decide (¬ entityName op ∈ (z.filter isCreation).map entityName)))
      = (z.filter isCreation).flatMap fun _ => ([] : List Instr) := by
    apply flatMap_congr_mem
    intro c hc
    rw [List.filter_eq_nil_iff]
    intro op hop
    have he : entityName op = entityName c := by
      have := (List.mem_filter.mp hop).2
      simpa using this
    have : entityName op ∈ (z.filter isCreation).map entityName := by
      rw [he]
      exact List.mem_map_of_mem entityName hc
    simp [this]
  have h2 : ((z.filter isCreation).flatMap fun _ => ([] : List Instr)) = [] := by
    rw [List.flatMap_eq_nil_iff]; intro _ _; rfl
  rw [h1, h2, List.nil_append, List.filter_filter]
  apply List.filter_congr
  intro op _
  by_cases he : entityName op ∈ (z.filter isCreation).map entityName <;> simp [he]

/-- Grouping is idempotent when the creation names are pairwise distinct. -/
theorem group_instructions_idem (z : List Instr) (hoth : z.filter isOther = [])
    (hnd : ((z.filter isCreation).map entityName).Nodup) :
    group_instructions (group_instructions z) = group_instructions z := by
  have hg_oth : (group_instructions z).filter isOther = [] := grouped_filter_other z hoth
  rw [group_instructions_eq (group_instructions z) hg_oth,
    grouped_filter_creation z hoth]
  have hb : ((z.filter isCreation).flatMap
        fun c => c :: opsFor ((group_instructions z).filter isOperation) (entityName c))
      = (z.filter isCreation).flatMap
          fun c => c :: opsFor (z.filter isOperation) (entityName c) := by
    apply flatMap_congr_mem
    intro c _
    rw [grouped_opsFor z hoth hnd]
  rw [hb, grouped_orphans z hoth, ← group_instructions_eq z hoth]

/-! Behaviour of the two-phase optimizer as a whole. -/

theorem optimize_ir_ne_nil (instrs : List Instr) (h : instrs ≠ []) :
    optimize_ir instrs = group_instructions (remove_redundant_sets instrs) :=
  if_neg h

theorem filter_remove_eq (p : Instr → Bool)
    (hp : ∀ ins, isSetProp ins = true → p ins = false) (l : List Instr) :
    (remove_redundant_sets l).filter p = l.filter p := by
  rw [remove_redundant_sets_eq]
  exact lastWriteFilter_filter p hp l

/-- With an unknown opcode present, the optimizer returns the phase-1 output
(the unknown instruction survives phase 1 and trips the phase-2 bailout). -/
theorem optimize_ir_of_unknown {instrs : List Instr}
    (h : ∃ ins ∈ instrs, isOther ins = true) :
    optimize_ir instrs = remove_redundant_sets instrs := by
  obtain ⟨ins, hmem, hoth⟩ := h
  have hne : instrs ≠ [] := List.ne_nil_of_mem hmem
  rw [optimize_ir_ne_nil instrs hne]
  have hfil : (remove_redundant_sets instrs).filter isOther = instrs.filter isOther :=
    filter_remove_eq isOther (fun _ hi => setProp_not_other hi) instrs
  have hnonnil : (remove_redundant_sets instrs).filter isOther ≠ [] := by
    rw [hfil]
    intro hc
    exact (List.filter_eq_nil_iff.mp hc ins hmem) hoth
  unfold group_instructions
  simp [hnonnil]

/-- With pairwise-distinct creation names the optimizer is idempotent. -/
theorem optimize_ir_idem_of_nodup (x : List Instr)
    (hnd : ((x.filter isCreation).map entityName).Nodup) :
    optimize_ir (optimize_ir x) = optimize_ir x := by
  by_cases hx : x = []
  · rw [hx]; rfl
  by_cases hoth : x.filter isOther = []
  · have hz_oth : (remove_redundant_sets x).filter isOther = [] := by
      rw [filter_remove_eq isOther (fun _ hi => setProp_not_other hi)]
      exact hoth
    have hz_cre : (remove_redundant_sets x).filter isCreation = x.filter isCreation :=
      filter_remove_eq isCreation (fun _ hi => setProp_not_creation hi) x
    have hz_nd : (((remove_redundant_sets x).filter isCreation).map entityName).Nodup := by
      rw [hz_cre]; exact hnd
    have hopt : optimize_ir x = group_instructions (remove_redundant_sets x) :=
      optimize_ir_ne_nil x hx
    by_cases hgnil : group_instructions (remove_redundant_sets x) = []
    · rw [hopt, hgnil]
      rfl
    · have hperm : List.Perm (group_instructions (remove_redundant_sets x))
          (remove_redundant_sets x) :=
        group_instructions_perm_of_nodup _ hz_nd
      have hgood_z : goodSets (remove_redundant_sets x) := by
        rw [remove_redundant_sets_eq]
        exact lastWriteFilter_goodSets x
      have hgood_g : goodSets (group_instructions (remove_redundant_sets x)) := by
        intro pk
        rw [setsForPair, hperm.countP_eq]
        exact hgood_z pk
      have hrg : remove_redundant_sets (group_instructions (remove_redundant_sets x)) =
          group_instructions (remove_redundant_sets x) := by
        rw [remove_redundant_sets_eq]
        exact lastWriteFilter_eq_self _ hgood_g
      rw [hopt, optimize_ir_ne_nil _ hgnil, hrg]
      exact group_instructions_idem (remove_redundant_sets x) hz_oth hz_nd
  · have hne2 : x.filter isOther ≠ [] := hoth
    obtain ⟨y, hy⟩ := List.exists_mem_of_ne_nil _ hne2
    have hymem := List.mem_filter.mp hy
    have hex : ∃ ins ∈ x, isOther ins = true := ⟨y, hymem.1, hymem.2⟩
    have h1 : optimize_ir x = remove_redundant_sets x := optimize_ir_of_unknown hex
    have hfil : (remove_redundant_sets x).filter isOther = x.filter isOther :=
      filter_remove_eq isOther (fun _ hi => setProp_not_other hi) x
    have hex2 : ∃ ins ∈ remove_redundant_sets x, isOther ins = true := by
      have hy2 : y ∈ (remove_redundant_sets x).filter isOther := by
        rw [hfil]; exact hy
      have h2 := List.mem_filter.mp hy2
      exact ⟨y, h2.1, h2.2⟩
    have h2 : optimize_ir (remove_redundant_sets x) =
        remove_redundant_sets (remove_redundant_sets x) :=
      optimize_ir_of_unknown hex2
    rw [h1, h2, remove_redundant_sets_eq (remove_redundant_sets x),
      remove_redundant_sets_eq x, lastWriteFilter_idem]

/-- Counts of non-`SET_PROPERTY` instructions survive the whole optimizer
when creation names are pairwise distinct. -/
theorem optimize_count_nonset (x : List Instr)
    (hnd : ((x.filter isCreation).map entityName).Nodup)
    {ins : Instr} (h : isSetProp ins = false) :
    (optimize_ir x).count ins = x.count ins := by
  by_cases hx : x = []
  · rw [hx]; rfl
  rw [optimize_ir_ne_nil x hx]
  have hz_nd : (((remove_redundant_sets x).filter isCreation).map entityName).Nodup := by
    rw [filter_remove_eq isCreation (fun _ hi => setProp_not_creation hi)]
    exact hnd
  have hperm := group_instructions_perm_of_nodup (remove_redundant_sets x) hz_nd
  rw [hperm.count_eq, remove_redundant_sets_eq]
  exact lastWriteFilter_count h x

/-! Concrete inputs used by the optimizer claims. -/

def exC2in : List Instr :=
  [mkCreateObject "o",
   mkSetProperty "o" "k" (.vstr "NUMBER") (.vint 1),
   mkSetProperty "o" "k" (.vstr "NUMBER") (.vint 2)]

def exC3in : List Instr :=
  [mkCreateObject "A", mkCreateObject "B",
   mkSetProperty "A" "x" (.vstr "NUMBER") (.vint 1),
   mkSetProperty "B" "y" (.vstr "NUMBER") (.vint 2),
   mkSetProperty "A" "z" (.vstr "NUMBER") (.vint 3)]

def cexC4 : List Instr :=
  [mkCreateList "L", mkCreateList "L", mkAppendList "L" (.vstr "NUMBER") (.vint 1)]

def cexC7 : List Instr :=
  [mkSetProperty "o" "k" (.vstr "NUMBER") (.vint 1),
   mkSetProperty "o" "k" (.vstr "NUMBER") (.vint 2),
   ⟨"IR_HALT", []⟩]

def exWitC7 : List Instr :=
  [mkCreateObject "a", ⟨"IR_NOP", []⟩]

def cexC9 : List Instr :=
  [mkCreateObject "o", mkCreateObject "o",
   mkSetProperty "o" "k" (.vstr "NUMBER") (.vint 1)]

/-- C2: phase 1 of the optimizer keeps every instruction whose opcode is not
SET_PROPERTY unconditionally, and keeps a SET_PROPERTY instruction exactly
when it is the last occurrence for its (objectName, key) pair, in its
original relative position; in particular the optimizer maps
[CREATE_OBJECT "o", SET("o","k",_,1), SET("o","k",_,2)] to
[CREATE_OBJECT "o", SET("o","k",_,2)]. -/
theorem claim_C2 :
    (∀ instrs : List Instr, remove_redundant_sets instrs = lastWriteFilter instrs) ∧
    optimize_ir exC2in =
      [mkCreateObject "o", mkSetProperty "o" "k" (.vstr "NUMBER") (.vint 2)] :=
  ⟨remove_redundant_sets_eq, by decide⟩

/-- C3: on sequences containing only the four known opcodes, the optimizer
lists each surviving creation in original creation order, each immediately
followed by all surviving operations targeting that entity in their original
relative order (operations whose entity has no creation instruction follow
at the end); in particular the interleaved two-object example regroups into
CREATE A, its writes, CREATE B, its write. -/
theorem claim_C3 :
    (∀ instrs : List Instr, (∀ ins ∈ instrs, isOther ins = false) →
      optimize_ir instrs =
        (((remove_redundant_sets instrs).filter isCreation).flatMap
            fun c => c :: opsFor ((remove_redundant_sets instrs).filter isOperation)
              (entityName c))
          ++ ((remove_redundant_sets instrs).filter isOperation).filter
              (fun op => decide (¬ entityName op ∈
                ((remove_redundant_sets instrs).filter isCreation).map entityName))) ∧
    optimize_ir exC3in =
      [mkCreateObject "A",
       mkSetProperty "A" "x" (.vstr "NUMBER") (.vint 1),
       mkSetProperty "A" "z" (.vstr "NUMBER") (.vint 3),
       mkCreateObject "B",
       mkSetProperty "B" "y" (.vstr "NUMBER") (.vint 2)] := by
  constructor
  · intro instrs h
    by_cases hnil : instrs = []
    · subst hnil; rfl
    · rw [optimize_ir_ne_nil instrs hnil]
      apply group_instructions_eq
      rw [filter_remove_eq isOther (fun _ hi => setProp_not_other hi),
        List.filter_eq_nil_iff]
      intro a ha
      rw [h a ha]
      simp
  · decide

/-- Witness for C3 at the concrete interleaved example. -/
theorem claim_C3_witness :
    optimize_ir exC3in =
      (((remove_redundant_sets exC3in).filter isCreation).flatMap
          fun c => c :: opsFor ((remove_redundant_sets exC3in).filter isOperation)
            (entityName c))
        ++ ((remove_redundant_sets exC3in).filter isOperation).filter
            (fun op => decide (¬ entityName op ∈
              ((remove_redundant_sets exC3in).filter isCreation).map entityName)) :=
  claim_C3.1 exC3in (by decide)

/-- C4 (amended): the optimizer is idempotent on every instruction sequence
whose creation instructions target pairwise-distinct names (as every
IR sequence produced by the validated pipeline does). -/
theorem claim_C4 (x : List Instr)
    (hnd : ((x.filter isCreation).map entityName).Nodup) :
    optimize_ir (optimize_ir x) = optimize_ir x :=
  optimize_ir_idem_of_nodup x hnd

/-- C4 counterexample: with a duplicated creation name, grouping duplicates
the append once per creation, and a second optimization run duplicates it
again, so optimize(optimize(x)) differs from optimize(x). -/
theorem claim_C4_counterexample :
    optimize_ir (optimize_ir cexC4) ≠ optimize_ir cexC4 := by decide

/-- Witness for C4 at a concrete well-formed input. -/
theorem claim_C4_witness :
    optimize_ir (optimize_ir exC2in) = optimize_ir exC2in :=
  claim_C4 exC2in (by decide)

/-- C7 (amended): when an instruction with an opcode outside the known set is
present, the optimizer degrades by skipping the grouping phase and returns
the phase-1 (redundant-write-elimination) output unchanged, rather than its
input unchanged. -/
theorem claim_C7 (instrs : List Instr)
    (h : ∃ ins ∈ instrs, isOther ins = true) :
    optimize_ir instrs = remove_redundant_sets instrs :=
  optimize_ir_of_unknown h

/-- C7 counterexample: an unknown opcode preceded by two writes to the same
key; the optimizer output drops the first write, so it is not the input. -/
theorem claim_C7_counterexample : optimize_ir cexC7 ≠ cexC7 := by decide

/-- Witness for C7 at a concrete input containing an unknown opcode. -/
theorem claim_C7_witness : optimize_ir exWitC7 = remove_redundant_sets exWitC7 :=
  claim_C7 exWitC7 (by decide)

/-- C9 (amended): when the creation instructions target pairwise-distinct
names, the grouping phase returns a permutation of its input, and the whole
optimizer preserves the multiplicity of every non-SET_PROPERTY instruction
(so no CREATE_OBJECT, CREATE_LIST or APPEND_LIST is dropped or duplicated). -/
theorem claim_C9 (instrs : List Instr)
    (hnd : ((instrs.filter isCreation).map entityName).Nodup) :
    List.Perm (group_instructions instrs) instrs ∧
    (∀ ins : Instr, isSetProp ins = false →
      (optimize_ir instrs).count ins = instrs.count ins) :=
  ⟨group_instructions_perm_of_nodup instrs hnd,
   fun _ h => optimize_count_nonset instrs hnd h⟩

/-- C9 counterexample: a duplicated creation name makes grouping emit the
single write twice, so the output (4 instructions) cannot be a permutation
of the input (3 instructions). -/
theorem claim_C9_counterexample :
    ¬ List.Perm (group_instructions cexC9) cexC9 := by
  intro h
  have hlen := h.length_eq
  have h1 : (group_instructions cexC9).length = 4 := by decide
  have h2 : cexC9.length = 3 := by decide
  rw [h1, h2] at hlen
  exact absurd hlen (by decide)

/-- Witness for C9 at the concrete interleaved example. -/
theorem claim_C9_witness :
    List.Perm (group_instructions exC3in) exC3in ∧
    (optimize_ir exC3in).count (mkCreateObject "A") =
      exC3in.count (mkCreateObject "A") :=
  ⟨(claim_C9 exC3in (by decide)).1,
   (claim_C9 exC3in (by decide)).2 (mkCreateObject "A") (by decide)⟩

/-! The code emitter (`src/codegen.py`) and the execution semantics of the
emitted program, used to state replay equivalence (claim C1). -/

/-- One statement of the generated Python program.  `generate_python_from_ir`
emits text; we embed every emitted template by the data it interpolates.
The pair `(tipo, valor)` stands for the literal text `format_value(valor,
tipo)` (a `repr` for STRING, `True`/`False` for BOOLEAN, `str` otherwise),
which the generated program evaluates back to the value it denotes, so the
pair is a faithful stand-in for the assigned literal.  `invalid` marks an
emitted line that cannot execute: a non-string variable name or property key
(interpolated raw into the template, yielding an assignment to a non-name),
or an argument list whose length breaks the emitter's tuple unpacking. -/
inductive PyStmt where
  | assignEmptyDict (name : String)
  | setItem (name key : String) (tipo valor : PyVal)
  | assignEmptyList (name : String)
  | appendItem (name : String) (tipo valor : PyVal)
  | invalid
deriving DecidableEq, Repr

/-- The statements `generate_python_from_ir` emits for one instruction.
The if/elif chain has no else branch: unknown opcodes emit nothing. -/
def stmtsOf (ins : Instr) : List PyStmt :=
  if ins.opcode == "IR_CREATE_OBJECT" then
    match ins.args.getD 0 PyVal.vnone with
    | .vstr n => [.assignEmptyDict n]
    | _ => [.invalid]
  else if ins.opcode == "IR_SET_PROPERTY" then
    match ins.args with
    | [.vstr n, .vstr k, t, v] => [.setItem n k t v]
    | _ => [.invalid]
  else if ins.opcode == "IR_CREATE_LIST" then
    match ins.args.getD 0 PyVal.vnone with
    | .vstr n => [.assignEmptyList n]
    | _ => [.invalid]
  else if ins.opcode == "IR_APPEND_LIST" then
    match ins.args with
    | [.vstr n, t, v] => [.appendItem n t v]
    | _ => [.invalid]
  else []

/-- `generate_python_from_ir` of `src/codegen.py`. -/
def generate_python_from_ir (ir_instructions : List Instr) : List PyStmt :=
  ir_instructions.flatMap stmtsOf

/-- A Python runtime value of the generated program: a dict built by
`name = {}` and `name["key"] = literal`, or a list built by `name = []` and
`name.append(literal)`.  Entries store the `(tipo, valor)` pair denoting the
assigned literal. -/
inductive Value where
  | obj (props : List (String × (PyVal × PyVal)))
  | lst (elems : List (PyVal × PyVal))
deriving DecidableEq, Repr

/-- Overwrite the entries with key `k` in place, preserving positions. -/
def overwriteEntry {β : Type} : List (String × β) → String → β → List (String × β)
  | [], _, _ => []
  | (k1, v1) :: rest, k, v =>
    if k1 = k then (k, v) :: overwriteEntry rest k v
    else (k1, v1) :: overwriteEntry rest k v

/-- Python dict assignment `d[k] = v`: overwrite in place when the key is
present (insertion order kept), append at the end otherwise. -/
def dictSet {β : Type} (l : List (String × β)) (k : String) (v : β) :
    List (String × β) :=
  if (l.lookup k).isSome then overwriteEntry l k v
  else l ++ [(k, v)]

/-- The variable environment of the generated program. -/
abbrev Env := List (String × Value)

/-- Execution of one emitted statement.  `none` is a runtime error:
NameError for an undefined name, TypeError/AttributeError for indexing or
appending on a value of the wrong kind, or an `invalid` line. -/
def execStmt (env : Env) : PyStmt → Option Env
  | .assignEmptyDict n => some (dictSet env n (.obj []))
  | .setItem n k t v =>
    match env.lookup n with
    | some (.obj props) => some (dictSet env n (.obj (dictSet props k (t, v))))
    | _ => none
  | .assignEmptyList n => some (dictSet env n (.lst []))
  | .appendItem n t v =>
    match env.lookup n with
    | some (.lst es) => some (dictSet env n (.lst (es ++ [(t, v)])))
    | _ => none
  | .invalid => none

/-- Execution of a statement sequence. -/
def runStmts (env : Env) : List PyStmt → Option Env
  | [] => some env
  | s :: rest =>
    match execStmt env s with
    | some e2 => runStmts e2 rest
    | none => none

/-- Replaying an IR sequence through the emitter: run the generated program
in an empty environment. -/
def replay (ir : List Instr) : Option Env :=
  runStmts [] (generate_python_from_ir ir)

/-- Replay continued from an environment, one instruction at a time. -/
def replayFrom (env : Env) : List Instr → Option Env
  | [] => some env
  | ins :: rest =>
    match runStmts env (stmtsOf ins) with
    | some e2 => replayFrom e2 rest
    | none => none

/-- Bounded-domain equality of two property tables: every key of either
side carries the same `(valueType, nativeValue)` binding on both sides. -/
def propsMatch (p q : List (String × (PyVal × PyVal))) : Bool :=
  (p.map Prod.fst ++ q.map Prod.fst).all (fun k => p.lookup k == q.lookup k)

/-- Claim C1's comparison of final values: objects agree per property key,
lists have the same elements in the same order. -/
def valueMatches : Value → Value → Bool
  | .obj p, .obj q => propsMatch p q
  | .lst es, .lst fs => es == fs
  | _, _ => false

/-- The claim's "same final program state": every variable of either
environment is bound in both to matching values, or in neither. -/
def envMatches (e1 e2 : Env) : Bool :=
  (e1.map Prod.fst ++ e2.map Prod.fst).all (fun n =>
    match e1.lookup n, e2.lookup n with
    | some v, some w => valueMatches v w
    | none, none => true
    | _, _ => false)

/-- Replay equivalence of two IR sequences: both replays succeed and end in
matching final states. -/
def replayEquivB (a b : List Instr) : Bool :=
  match replay a, replay b with
  | some e1, some e2 => envMatches e1 e2
  | _, _ => false

/-- Entity kinds. -/
inductive EKind where
  | objK
  | lstK
deriving DecidableEq, Repr

/-- Well-formedness of an IR sequence relative to the already-created
entities: the invariant the IR builder guarantees by construction (spec
section 3): only the four opcodes, each with its documented argument shape,
each entity created at most once, and every SET_PROPERTY / APPEND_LIST
preceded by the creation of its target with the matching kind. -/
def wfFrom (created : List (String × EKind)) : List Instr → Bool
  | [] => true
  | ins :: rest =>
    if ins.opcode == "IR_CREATE_OBJECT" then
      match ins.args with
      | [.vstr n] => !(created.lookup n).isSome && wfFrom ((n, .objK) :: created) rest
      | _ => false
    else if ins.opcode == "IR_CREATE_LIST" then
      match ins.args with
      | [.vstr n] => !(created.lookup n).isSome && wfFrom ((n, .lstK) :: created) rest
      | _ => false
    else if ins.opcode == "IR_SET_PROPERTY" then
      match ins.args with
      | [.vstr n, .vstr _, _, _] => (created.lookup n == some .objK) && wfFrom created rest
      | _ => false
    else if ins.opcode == "IR_APPEND_LIST" then
      match ins.args with
      | [.vstr n, _, _] => (created.lookup n == some .lstK) && wfFrom created rest
      | _ => false
    else false

/-- A well-formed IR sequence (starting from no created entities). -/
def WFIR (l : List Instr) : Prop := wfFrom [] l = true

/-- Left-biased choice, used to compose property lookups. -/
def optOr {α : Type} (a b : Option α) : Option α :=
  match a with
  | some x => some x
  | none => b

/-- The `(tipo, valor)` this instruction writes to object `n`, key `k`. -/
def matchSetTV (ins : Instr) (n k : String) : Option (PyVal × PyVal) :=
  if ins.opcode == "IR_SET_PROPERTY" && decide (ins.arg 0 = .vstr n)
      && decide (ins.arg 1 = .vstr k) then
    some (ins.arg 2, ins.arg 3)
  else none

/-- The last value written to object `n`, key `k` over the sequence. -/
def lastSetTV : List Instr → String → String → Option (PyVal × PyVal)
  | [], _, _ => none
  | ins :: rest, n, k => optOr (lastSetTV rest n k) (matchSetTV ins n k)

/-- The `(tipo, valor)` this instruction appends to list `n`, if any. -/
def matchAppendTV (ins : Instr) (n : String) : Option (PyVal × PyVal) :=
  if ins.opcode == "IR_APPEND_LIST" && decide (ins.arg 0 = .vstr n) then
    some (ins.arg 1, ins.arg 2)
  else none

/-- All values appended to list `n` over the sequence, in order. -/
def appendsTV : List Instr → String → List (PyVal × PyVal)
  | [], _ => []
  | ins :: rest, n =>
    match matchAppendTV ins n with
    | some tv => tv :: appendsTV rest n
    | none => appendsTV rest n

/-- The kind with which `n` is (first) created in the sequence, if any. -/
def createdKind : List Instr → String → Option EKind
  | [], _ => none
  | ins :: rest, n =>
    if ins.opcode == "IR_CREATE_OBJECT" && decide (ins.arg 0 = .vstr n) then
      some .objK
    else if ins.opcode == "IR_CREATE_LIST" && decide (ins.arg 0 = .vstr n) then
      some .lstK
    else createdKind rest n

/-! Reduction lemmas on the exact instruction shapes. -/

theorem stmtsOf_mkCreateObject (n : String) :
    stmtsOf (mkCreateObject n) = [.assignEmptyDict n] := rfl

theorem stmtsOf_mkSetProperty (n k : String) (t v : PyVal) :
    stmtsOf (mkSetProperty n k t v) = [.setItem n k t v] := rfl

theorem stmtsOf_mkCreateList (n : String) :
    stmtsOf (mkCreateList n) = [.assignEmptyList n] := rfl

theorem stmtsOf_mkAppendList (n : String) (t v : PyVal) :
    stmtsOf (mkAppendList n t v) = [.appendItem n t v] := rfl

theorem matchSetTV_mkSetProperty (n k : String) (t v : PyVal) (n' k' : String) :
    matchSetTV (mkSetProperty n k t v) n' k' =
      if n = n' ∧ k = k' then some (t, v) else none := by
  unfold matchSetTV mkSetProperty Instr.arg
  by_cases h1 : n = n' <;> by_cases h2 : k = k' <;> simp [h1, h2]

theorem matchSetTV_mkCreateObject (m n k : String) :
    matchSetTV (mkCreateObject m) n k = none := rfl

theorem matchSetTV_mkCreateList (m n k : String) :
    matchSetTV (mkCreateList m) n k = none := rfl

theorem matchSetTV_mkAppendList (m : String) (t v : PyVal) (n k : String) :
    matchSetTV (mkAppendList m t v) n k = none := rfl

theorem matchAppendTV_mkAppendList (m : String) (t v : PyVal) (n : String) :
    matchAppendTV (mkAppendList m t v) n = if m = n then some (t, v) else none := by
  unfold matchAppendTV mkAppendList Instr.arg
  by_cases h : m = n <;> simp [h]

theorem matchAppendTV_mkCreateObject (m n : String) :
    matchAppendTV (mkCreateObject m) n = none := rfl

theorem matchAppendTV_mkCreateList (m n : String) :
    matchAppendTV (mkCreateList m) n = none := rfl

theorem matchAppendTV_mkSetProperty (m k : String) (t v : PyVal) (n : String) :
    matchAppendTV (mkSetProperty m k t v) n = none := rfl

theorem createdKind_cons_mkCreateObject (m : String) (rest : List Instr) (n : String) :
    createdKind (mkCreateObject m :: rest) n =
      if m = n then some .objK else createdKind rest n := by
  by_cases h : m = n <;> simp [createdKind, mkCreateObject, Instr.arg, h]

theorem createdKind_cons_mkCreateList (m : String) (rest : List Instr) (n : String) :
    createdKind (mkCreateList m :: rest) n =
      if m = n then some .lstK else createdKind rest n := by
  by_cases h : m = n <;> simp [createdKind, mkCreateList, Instr.arg, h]

theorem createdKind_cons_mkSetProperty (m k : String) (t v : PyVal)
    (rest : List Instr) (n : String) :
    createdKind (mkSetProperty m k t v :: rest) n = createdKind rest n := rfl

theorem createdKind_cons_mkAppendList (m : String) (t v : PyVal)
    (rest : List Instr) (n : String) :
    createdKind (mkAppendList m t v :: rest) n = createdKind rest n := rfl

theorem lastSetTV_cons (ins : Instr) (rest : List Instr) (n k : String) :
    lastSetTV (ins :: rest) n k = optOr (lastSetTV rest n k) (matchSetTV ins n k) := rfl

theorem optOr_none_left {α : Type} (b : Option α) : optOr none b = b := rfl

theorem optOr_some_left {α : Type} (a : α) (b : Option α) :
    optOr (some a) b = some a := rfl

theorem optOr_none_right {α : Type} (a : Option α) : optOr a none = a := by
  cases a <;> rfl

theorem optOr_assoc {α : Type} (a b c : Option α) :
    optOr (optOr a b) c = optOr a (optOr b c) := by
  cases a <;> rfl

/-! Lookup behaviour of Python dict assignment. -/

theorem lookup_overwriteEntry_self {β : Type} (k : String) (v : β) :
    ∀ l : List (String × β), (l.lookup k).isSome →
      ((overwriteEntry l k v).lookup k) = some v := by
  intro l
  induction l with
  | nil => intro h; simp [List.lookup] at h
  | cons p rest ih =>
    obtain ⟨k1, v1⟩ := p
    intro h
    by_cases hp : k1 = k
    · subst hp
      rw [overwriteEntry, if_pos rfl, List.lookup]
      simp
    · have hne : (k == k1) = false := by
        simp only [beq_eq_false_iff_ne, ne_eq]
        exact fun he => hp he.symm
      rw [overwriteEntry, if_neg hp, List.lookup, hne]
      rw [List.lookup, hne] at h
      exact ih h

theorem lookup_overwriteEntry_other {β : Type} (k : String) (v : β) (k' : String)
    (hk : k' ≠ k) :
    ∀ l : List (String × β), ((overwriteEntry l k v).lookup k') = l.lookup k' := by
  intro l
  induction l with
  | nil => rfl
  | cons p rest ih =>
    obtain ⟨k1, v1⟩ := p
    by_cases hp : k1 = k
    · subst hp
      have hne : (k' == k1) = false := by
        simp only [beq_eq_false_iff_ne, ne_eq]
        exact hk
      rw [overwriteEntry, if_pos rfl, List.lookup, List.lookup, hne]
      exact ih
    · rw [overwriteEntry, if_neg hp, List.lookup, List.lookup]
      cases hb : (k' == k1) with
      | true => rfl
      | false => exact ih

theorem lookup_append_single_self {β : Type} (k : String) (v : β) :
    ∀ l : List (String × β), l.lookup k = none →
      ((l ++ [(k, v)]).lookup k) = some v := by
  intro l
  induction l with
  | nil => simp [List.lookup]
  | cons p rest ih =>
    obtain ⟨k1, v1⟩ := p
    intro h
    rw [List.cons_append, List.lookup]
    rw [List.lookup] at h
    cases hb : (k == k1) with
    | true => rw [hb] at h; exact absurd h (by simp)
    | false => rw [hb] at h; exact ih h

theorem lookup_append_single_other {β : Type} (k : String) (v : β) (k' : String)
    (hk : k' ≠ k) :
    ∀ l : List (String × β), ((l ++ [(k, v)]).lookup k') = l.lookup k' := by
  intro l
  induction l with
  | nil =>
    have hne : (k' == k) = false := by
      simp only [beq_eq_false_iff_ne, ne_eq]
      exact hk
    simp [List.lookup, hne]
  | cons p rest ih =>
    obtain ⟨k1, v1⟩ := p
    rw [List.cons_append, List.lookup, List.lookup]
    cases hb : (k' == k1) with
    | true => rfl
    | false => exact ih

theorem lookup_dictSet_self {β : Type} (l : List (String × β)) (k : String) (v : β) :
    (dictSet l k v).lookup k = some v := by
  unfold dictSet
  by_cases h : (l.lookup k).isSome
  · rw [if_pos h]
    exact lookup_overwriteEntry_self k v l h
  · rw [if_neg h]
    apply lookup_append_single_self
    cases hl : l.lookup k with
    | none => rfl
    | some w => exact absurd (show (l.lookup k).isSome = true by rw [hl]; rfl) h

theorem lookup_dictSet_other {β : Type} (l : List (String × β)) (k : String) (v : β)
    (k' : String) (hk : k' ≠ k) :
    (dictSet l k v).lookup k' = l.lookup k' := by
  unfold dictSet
  by_cases h : (l.lookup k).isSome
  · rw [if_pos h]
    exact lookup_overwriteEntry_other k v k' hk l
  · rw [if_neg h]
    exact lookup_append_single_other k v k' hk l

theorem lookup_dictSet {β : Type} (l : List (String × β)) (k : String) (v : β)
    (k' : String) :
    (dictSet l k v).lookup k' = if k' = k then some v else l.lookup k' := by
  by_cases h : k' = k
  · subst h
    rw [if_pos rfl]
    exact lookup_dictSet_self l k' v
  · rw [if_neg h]
    exact lookup_dictSet_other l k v k' h

theorem lookup_cons_self {β : Type} (c : List (String × β)) (m : String) (x : β) :
    (((m, x) :: c).lookup m) = some x := by
  rw [List.lookup]
  simp

theorem lookup_cons_ne {β : Type} (c : List (String × β)) (m n : String) (x : β)
    (h : m ≠ n) : (((m, x) :: c).lookup n) = c.lookup n := by
  rw [List.lookup]
  have hb : (n == m) = false := by
    simp only [beq_eq_false_iff_ne, ne_eq]
    exact fun he => h he.symm
  rw [hb]

theorem isSome_false_eq_none {α : Type} {o : Option α} (h : o.isSome = false) :
    o = none := by
  cases o with
  | none => rfl
  | some _ => simp at h

/-! Inversion of well-formedness at a cons cell. -/

theorem wfFrom_cons_inv {c : List (String × EKind)} {ins : Instr} {rest : List Instr}
    (h : wfFrom c (ins :: rest) = true) :
    (∃ n, ins = mkCreateObject n ∧ c.lookup n = none ∧
      wfFrom ((n, .objK) :: c) rest = true) ∨
    (∃ n, ins = mkCreateList n ∧ c.lookup n = none ∧
      wfFrom ((n, .lstK) :: c) rest = true) ∨
    (∃ n k t v, ins = mkSetProperty n k t v ∧ c.lookup n = some .objK ∧
      wfFrom c rest = true) ∨
    (∃ n t v, ins = mkAppendList n t v ∧ c.lookup n = some .lstK ∧
      wfFrom c rest = true) := by
  obtain ⟨op, args⟩ := ins
  rw [wfFrom] at h
  by_cases h1 : (op == "IR_CREATE_OBJECT") = true
  · rw [if_pos h1] at h
    have hop : op = "IR_CREATE_OBJECT" := eq_of_beq h1
    match args, h with
    | [.vstr n], h =>
      left
      refine ⟨n, by rw [hop]; rfl, ?_, ?_⟩
      · simp only [Bool.and_eq_true, Bool.not_eq_true'] at h
        exact isSome_false_eq_none h.1
      · simp only [Bool.and_eq_true] at h
        exact h.2
  · rw [if_neg h1] at h
    by_cases h2 : (op == "IR_CREATE_LIST") = true
    · rw [if_pos h2] at h
      have hop : op = "IR_CREATE_LIST" := eq_of_beq h2
      match args, h with
      | [.vstr n], h =>
        right; left
        refine ⟨n, by rw [hop]; rfl, ?_, ?_⟩
        · simp only [Bool.and_eq_true, Bool.not_eq_true'] at h
          exact isSome_false_eq_none h.1
        · simp only [Bool.and_eq_true] at h
          exact h.2
    · rw [if_neg h2] at h
      by_cases h3 : (op == "IR_SET_PROPERTY") = true
      · rw [if_pos h3] at h
        have hop : op = "IR_SET_PROPERTY" := eq_of_beq h3
        match args, h with
        | [.vstr n, .vstr k, t, v], h =>
          right; right; left
          refine ⟨n, k, t, v, by rw [hop]; rfl, ?_, ?_⟩
          · simp only [Bool.and_eq_true, beq_iff_eq] at h
            exact h.1
          · simp only [Bool.and_eq_true] at h
            exact h.2
      · rw [if_neg h3] at h
        by_cases h4 : (op == "IR_APPEND_LIST") = true
        · rw [if_pos h4] at h
          have hop : op = "IR_APPEND_LIST" := eq_of_beq h4
          match args, h with
          | [.vstr n, t, v], h =>
            right; right; right
            refine ⟨n, t, v, by rw [hop]; rfl, ?_, ?_⟩
            · simp only [Bool.and_eq_true, beq_iff_eq] at h
              exact h.1
            · simp only [Bool.and_eq_true] at h
              exact h.2
        · rw [if_neg h4] at h
          exact absurd h (by simp)

/-- A name already created is never created again in a well-formed tail. -/
theorem createdKind_none_of_created :
    ∀ (l : List Instr) (c : List (String × EKind)) (n : String),
      wfFrom c l = true → (c.lookup n).isSome = true → createdKind l n = none := by
  intro l
  induction l with
  | nil => intro c n _ _; rfl
  | cons ins rest ih =>
    intro c n hwf hsome
    rcases wfFrom_cons_inv hwf with
      ⟨m, rfl, hlk, hrest⟩ | ⟨m, rfl, hlk, hrest⟩ |
      ⟨m, k, t, v, rfl, hlk, hrest⟩ | ⟨m, t, v, rfl, hlk, hrest⟩
    · have hmn : m ≠ n := by
        intro he
        rw [he] at hlk
        rw [hlk] at hsome
        simp at hsome
      rw [createdKind_cons_mkCreateObject, if_neg hmn]
      apply ih ((m, .objK) :: c) n hrest
      rw [lookup_cons_ne c m n _ hmn]
      exact hsome
    · have hmn : m ≠ n := by
        intro he
        rw [he] at hlk
        rw [hlk] at hsome
        simp at hsome
      rw [createdKind_cons_mkCreateList, if_neg hmn]
      apply ih ((m, .lstK) :: c) n hrest
      rw [lookup_cons_ne c m n _ hmn]
      exact hsome
    · rw [createdKind_cons_mkSetProperty]
      exact ih c n hrest hsome
    · rw [createdKind_cons_mkAppendList]
      exact ih c n hrest hsome

/-! Step lemmas for instruction-wise replay. -/

theorem replayFrom_cons_createObject (env : Env) (n : String) (rest : List Instr) :
    replayFrom env (mkCreateObject n :: rest) =
      replayFrom (dictSet env n (.obj [])) rest := rfl

theorem replayFrom_cons_createList (env : Env) (n : String) (rest : List Instr) :
    replayFrom env (mkCreateList n :: rest) =
      replayFrom (dictSet env n (.lst [])) rest := rfl

theorem replayFrom_cons_setProperty (env : Env) (n k : String) (t v : PyVal)
    (rest : List Instr) {props : List (String × (PyVal × PyVal))}
    (h : env.lookup n = some (.obj props)) :
    replayFrom env (mkSetProperty n k t v :: rest) =
      replayFrom (dictSet env n (.obj (dictSet props k (t, v)))) rest := by
  show (match runStmts env (stmtsOf (mkSetProperty n k t v)) with
    | some e2 => replayFrom e2 rest
    | none => none) = _
  rw [stmtsOf_mkSetProperty]
  show (match (match execStmt env (.setItem n k t v) with
    | some e2 => runStmts e2 []
    | none => none) with
    | some e2 => replayFrom e2 rest
    | none => none) = _
  rw [execStmt, h]
  rfl

theorem replayFrom_cons_appendList (env : Env) (n : String) (t v : PyVal)
    (rest : List Instr) {es : List (PyVal × PyVal)}
    (h : env.lookup n = some (.lst es)) :
    replayFrom env (mkAppendList n t v :: rest) =
      replayFrom (dictSet env n (.lst (es ++ [(t, v)]))) rest := by
  show (match runStmts env (stmtsOf (mkAppendList n t v)) with
    | some e2 => replayFrom e2 rest
    | none => none) = _
  rw [stmtsOf_mkAppendList]
  show (match (match execStmt env (.appendItem n t v) with
    | some e2 => runStmts e2 []
    | none => none) with
    | some e2 => replayFrom e2 rest
    | none => none) = _
  rw [execStmt, h]
  rfl

theorem appendsTV_cons (ins : Instr) (rest : List Instr) (n : String) :
    appendsTV (ins :: rest) n =
      match matchAppendTV ins n with
      | some tv => tv :: appendsTV rest n
      | none => appendsTV rest n := rfl

/-- The created-entity table is consistent with the environment. -/
def EnvOk (created : List (String × EKind)) (env : Env) : Prop :=
  ∀ n : String,
    (created.lookup n = some .objK → ∃ p, env.lookup n = some (.obj p)) ∧
    (created.lookup n = some .lstK → ∃ es, env.lookup n = some (.lst es))

/-- Replay of a well-formed sequence never fails, and the final environment
is characterised per name: an object created in the sequence holds, per key,
the last value written to it; a list created in the sequence holds all its
appends in order; a pre-created entity combines its starting contents with
the sequence's writes; an untouched name keeps its starting binding. -/
theorem replayFrom_char :
    ∀ (l : List Instr) (created : List (String × EKind)) (env : Env),
      wfFrom created l = true → EnvOk created env →
      ∃ e2, replayFrom env l = some e2 ∧
        (∀ n : String,
          (createdKind l n = some .objK →
            ∃ p, e2.lookup n = some (.obj p) ∧ ∀ k, p.lookup k = lastSetTV l n k) ∧
          (createdKind l n = some .lstK →
            e2.lookup n = some (.lst (appendsTV l n))) ∧
          (createdKind l n = none →
            (created.lookup n = some .objK →
              ∃ p0 p, env.lookup n = some (.obj p0) ∧ e2.lookup n = some (.obj p) ∧
                ∀ k, p.lookup k = optOr (lastSetTV l n k) (p0.lookup k)) ∧
            (created.lookup n = some .lstK →
              ∃ es0, env.lookup n = some (.lst es0) ∧
                e2.lookup n = some (.lst (es0 ++ appendsTV l n))) ∧
            (created.lookup n = none → e2.lookup n = env.lookup n))) := by
  intro l
  induction l with
  | nil =>
    intro created env _ henv
    refine ⟨env, rfl, ?_⟩
    intro n
    refine ⟨fun h => absurd h (by simp [createdKind]),
      fun h => absurd h (by simp [createdKind]), ?_⟩
    intro _
    refine ⟨?_, ?_, fun _ => rfl⟩
    · intro hc
      obtain ⟨p, hp⟩ := (henv n).1 hc
      exact ⟨p, p, hp, hp, fun _ => rfl⟩
    · intro hc
      obtain ⟨es, hes⟩ := (henv n).2 hc
      exact ⟨es, hes, by rw [hes]; simp [appendsTV]⟩
  | cons ins rest ih =>
    intro created env hwf henv
    rcases wfFrom_cons_inv hwf with
      ⟨m, rfl, hlk, hrest⟩ | ⟨m, rfl, hlk, hrest⟩ |
      ⟨m, key, t, v, rfl, hlk, hrest⟩ | ⟨m, t, v, rfl, hlk, hrest⟩
    · -- CREATE_OBJECT m
      have henv1 : EnvOk ((m, .objK) :: created) (dictSet env m (.obj [])) := by
        intro n
        by_cases hn : m = n
        · subst hn
          refine ⟨fun _ => ⟨[], lookup_dictSet_self env m (.obj [])⟩, ?_⟩
          intro hc
          rw [lookup_cons_self] at hc
          exact absurd hc (by simp)
        · have hcrt := lookup_cons_ne created m n (EKind.objK) hn
          have henvn := lookup_dictSet_other env m (Value.obj []) n (fun he => hn he.symm)
          refine ⟨?_, ?_⟩
          · intro hc
            rw [hcrt] at hc
            obtain ⟨p, hp⟩ := (henv n).1 hc
            exact ⟨p, by rw [henvn]; exact hp⟩
          · intro hc
            rw [hcrt] at hc
            obtain ⟨es, hes⟩ := (henv n).2 hc
            exact ⟨es, by rw [henvn]; exact hes⟩
      obtain ⟨e2, hrun, hchar⟩ :=
        ih ((m, .objK) :: created) (dictSet env m (.obj [])) hrest henv1
      refine ⟨e2, by rw [replayFrom_cons_createObject]; exact hrun, ?_⟩
      intro n
      by_cases hn : m = n
      · subst hn
        have hck : createdKind rest m = none := by
          apply createdKind_none_of_created rest ((m, .objK) :: created) m hrest
          rw [lookup_cons_self]
          rfl
        have h3 := ((hchar m).2.2 hck).1 (by rw [lookup_cons_self])
        obtain ⟨p0, p, hp0, hp, hpk⟩ := h3
        rw [lookup_dictSet_self] at hp0
        have hp0nil : p0 = [] := by
          injection hp0 with h5
          injection h5 with h6
          exact h6.symm
        refine ⟨?_, ?_, ?_⟩
        · intro _
          refine ⟨p, hp, ?_⟩
          intro k
          rw [hpk k, hp0nil]
          show optOr (lastSetTV rest m k) none = _
          rw [optOr_none_right, lastSetTV_cons, matchSetTV_mkCreateObject,
            optOr_none_right]
        · intro hc
          rw [createdKind_cons_mkCreateObject, if_pos rfl] at hc
          exact absurd hc (by simp)
        · intro hc
          rw [createdKind_cons_mkCreateObject, if_pos rfl] at hc
          exact absurd hc (by simp)
      · have hck : createdKind (mkCreateObject m :: rest) n = createdKind rest n := by
          rw [createdKind_cons_mkCreateObject, if_neg hn]
        have hlst : ∀ k, lastSetTV (mkCreateObject m :: rest) n k = lastSetTV rest n k := by
          intro k
          rw [lastSetTV_cons, matchSetTV_mkCreateObject, optOr_none_right]
        have happ : appendsTV (mkCreateObject m :: rest) n = appendsTV rest n := by
          rw [appendsTV_cons, matchAppendTV_mkCreateObject]
        have hcrt : ((m, EKind.objK) :: created).lookup n = created.lookup n :=
          lookup_cons_ne created m n (EKind.objK) hn
        have henvn : (dictSet env m (.obj [])).lookup n = env.lookup n :=
          lookup_dictSet_other env m (Value.obj []) n (fun he => hn he.symm)
        obtain ⟨c1, c2, c3⟩ := hchar n
        refine ⟨?_, ?_, ?_⟩
        · intro hc
          rw [hck] at hc
          obtain ⟨p, hp, hpk⟩ := c1 hc
          exact ⟨p, hp, fun k => by rw [hpk k, hlst k]⟩
        · intro hc
          rw [hck] at hc
          rw [happ]
          exact c2 hc
        · intro hc
          rw [hck] at hc
          have h4 := c3 hc
          refine ⟨?_, ?_, ?_⟩
          · intro ho
            obtain ⟨p0, p, hp0, hp, hpk⟩ := h4.1 (hcrt.trans ho)
            rw [henvn] at hp0
            exact ⟨p0, p, hp0, hp, fun k => by rw [hpk k, hlst k]⟩
          · intro ho
            obtain ⟨es0, hes0, hes⟩ := h4.2.1 (hcrt.trans ho)
            rw [henvn] at hes0
            rw [happ]
            exact ⟨es0, hes0, hes⟩
          · intro ho
            have h7 := h4.2.2 (hcrt.trans ho)
            rw [henvn] at h7
            exact h7
    · -- CREATE_LIST m
      have henv1 : EnvOk ((m, .lstK) :: created) (dictSet env m (.lst [])) := by
        intro n
        by_cases hn : m = n
        · subst hn
          refine ⟨?_, fun _ => ⟨[], lookup_dictSet_self env m (.lst [])⟩⟩
          intro hc
          rw [lookup_cons_self] at hc
          exact absurd hc (by simp)
        · have hcrt := lookup_cons_ne created m n (EKind.lstK) hn
          have henvn := lookup_dictSet_other env m (Value.lst []) n (fun he => hn he.symm)
          refine ⟨?_, ?_⟩
          · intro hc
            rw [hcrt] at hc
            obtain ⟨p, hp⟩ := (henv n).1 hc
            exact ⟨p, by rw [henvn]; exact hp⟩
          · intro hc
            rw [hcrt] at hc
            obtain ⟨es, hes⟩ := (henv n).2 hc
            exact ⟨es, by rw [henvn]; exact hes⟩
      obtain ⟨e2, hrun, hchar⟩ :=
        ih ((m, .lstK) :: created) (dictSet env m (.lst [])) hrest henv1
      refine ⟨e2, by rw [replayFrom_cons_createList]; exact hrun, ?_⟩
      intro n
      by_cases hn : m = n
      · subst hn
        have hck : createdKind rest m = none := by
          apply createdKind_none_of_created rest ((m, .lstK) :: created) m hrest
          rw [lookup_cons_self]
          rfl
        have h3 := ((hchar m).2.2 hck).2.1 (by rw [lookup_cons_self])
        obtain ⟨es0, hes0, hes⟩ := h3
        rw [lookup_dictSet_self] at hes0
        have hes0nil : es0 = [] := by
          injection hes0 with h5
          injection h5 with h6
          exact h6.symm
        refine ⟨?_, ?_, ?_⟩
        · intro hc
          rw [createdKind_cons_mkCreateList, if_pos rfl] at hc
          exact absurd hc (by simp)
        · intro _
          rw [hes0nil, List.nil_append] at hes
          have happ : appendsTV (mkCreateList m :: rest) m = appendsTV rest m := by
            rw [appendsTV_cons, matchAppendTV_mkCreateList]
          rw [happ]
          exact hes
        · intro hc
          rw [createdKind_cons_mkCreateList, if_pos rfl] at hc
          exact absurd hc (by simp)
      · have hck : createdKind (mkCreateList m :: rest) n = createdKind rest n := by
          rw [createdKind_cons_mkCreateList, if_neg hn]
        have hlst : ∀ k, lastSetTV (mkCreateList m :: rest) n k = lastSetTV rest n k := by
          intro k
          rw [lastSetTV_cons, matchSetTV_mkCreateList, optOr_none_right]
        have happ : appendsTV (mkCreateList m :: rest) n = appendsTV rest n := by
          rw [appendsTV_cons, matchAppendTV_mkCreateList]
        have hcrt : ((m, EKind.lstK) :: created).lookup n = created.lookup n :=
          lookup_cons_ne created m n (EKind.lstK) hn
        have henvn : (dictSet env m (.lst [])).lookup n = env.lookup n :=
          lookup_dictSet_other env m (Value.lst []) n (fun he => hn he.symm)
        obtain ⟨c1, c2, c3⟩ := hchar n
        refine ⟨?_, ?_, ?_⟩
        · intro hc
          rw [hck] at hc
          obtain ⟨p, hp, hpk⟩ := c1 hc
          exact ⟨p, hp, fun k => by rw [hpk k, hlst k]⟩
        · intro hc
          rw [hck] at hc
          rw [happ]
          exact c2 hc
        · intro hc
          rw [hck] at hc
          have h4 := c3 hc
          refine ⟨?_, ?_, ?_⟩
          · intro ho
            obtain ⟨p0, p, hp0, hp, hpk⟩ := h4.1 (hcrt.trans ho)
            rw [henvn] at hp0
            exact ⟨p0, p, hp0, hp, fun k => by rw [hpk k, hlst k]⟩
          · intro ho
            obtain ⟨es0, hes0, hes⟩ := h4.2.1 (hcrt.trans ho)
            rw [henvn] at hes0
            rw [happ]
            exact ⟨es0, hes0, hes⟩
          · intro ho
            have h7 := h4.2.2 (hcrt.trans ho)
            rw [henvn] at h7
            exact h7
    · -- SET_PROPERTY m key t v
      obtain ⟨props0, hprops0⟩ := (henv m).1 hlk
      have henv1 : EnvOk created (dictSet env m (.obj (dictSet props0 key (t, v)))) := by
        intro n
        by_cases hn : m = n
        · subst hn
          refine ⟨fun _ => ⟨dictSet props0 key (t, v), lookup_dictSet_self env m _⟩, ?_⟩
          intro hc
          rw [hlk] at hc
          exact absurd hc (by simp)
        · have henvn := lookup_dictSet_other env m
            (Value.obj (dictSet props0 key (t, v))) n (fun he => hn he.symm)
          refine ⟨?_, ?_⟩
          · intro hc
            obtain ⟨p, hp⟩ := (henv n).1 hc
            exact ⟨p, by rw [henvn]; exact hp⟩
          · intro hc
            obtain ⟨es, hes⟩ := (henv n).2 hc
            exact ⟨es, by rw [henvn]; exact hes⟩
      obtain ⟨e2, hrun, hchar⟩ :=
        ih created (dictSet env m (.obj (dictSet props0 key (t, v)))) hrest henv1
      refine ⟨e2,
        by rw [replayFrom_cons_setProperty env m key t v rest hprops0]; exact hrun, ?_⟩
      intro n
      by_cases hn : m = n
      · subst hn
        have hck : createdKind rest m = none :=
          createdKind_none_of_created rest created m hrest (by rw [hlk]; rfl)
        have hckc : createdKind (mkSetProperty m key t v :: rest) m = none := by
          rw [createdKind_cons_mkSetProperty]
          exact hck
        refine ⟨?_, ?_, ?_⟩
        · intro hc
          rw [hckc] at hc
          exact absurd hc (by simp)
        · intro hc
          rw [hckc] at hc
          exact absurd hc (by simp)
        · intro _
          have h3 := (hchar m).2.2 hck
          refine ⟨?_, ?_, ?_⟩
          · intro _
            obtain ⟨q0, q, hq0, hq, hqk⟩ := h3.1 hlk
            rw [lookup_dictSet_self] at hq0
            have hq0eq : q0 = dictSet props0 key (t, v) := by
              injection hq0 with h5
              injection h5 with h6
              exact h6.symm
            refine ⟨props0, q, hprops0, hq, ?_⟩
            intro k
            rw [hqk k, hq0eq, lookup_dictSet props0 key (t, v) k,
              lastSetTV_cons, matchSetTV_mkSetProperty, optOr_assoc]
            congr 1
            by_cases hkk : key = k
            · subst hkk
              simp [optOr]
            · have hkk2 : ¬(k = key) := fun he => hkk he.symm
              simp [hkk, hkk2, optOr]
          · intro hc
            rw [hlk] at hc
            exact absurd hc (by simp)
          · intro hc
            rw [hlk] at hc
            exact absurd hc (by simp)
      · have hck : createdKind (mkSetProperty m key t v :: rest) n = createdKind rest n :=
          createdKind_cons_mkSetProperty m key t v rest n
        have hlst : ∀ k, lastSetTV (mkSetProperty m key t v :: rest) n k =
            lastSetTV rest n k := by
          intro k
          rw [lastSetTV_cons, matchSetTV_mkSetProperty,
            if_neg (fun hand => hn hand.1), optOr_none_right]
        have happ : appendsTV (mkSetProperty m key t v :: rest) n = appendsTV rest n := by
          rw [appendsTV_cons, matchAppendTV_mkSetProperty]
        have henvn : (dictSet env m (.obj (dictSet props0 key (t, v)))).lookup n =
            env.lookup n :=
          lookup_dictSet_other env m _ n (fun he => hn he.symm)
        obtain ⟨c1, c2, c3⟩ := hchar n
        refine ⟨?_, ?_, ?_⟩
        · intro hc
          rw [hck] at hc
          obtain ⟨p, hp, hpk⟩ := c1 hc
          exact ⟨p, hp, fun k => by rw [hpk k, hlst k]⟩
        · intro hc
          rw [hck] at hc
          rw [happ]
          exact c2 hc
        · intro hc
          rw [hck] at hc
          have h4 := c3 hc
          refine ⟨?_, ?_, ?_⟩
          · intro ho
            obtain ⟨p0, p, hp0, hp, hpk⟩ := h4.1 ho
            rw [henvn] at hp0
            exact ⟨p0, p, hp0, hp, fun k => by rw [hpk k, hlst k]⟩
          · intro ho
            obtain ⟨es0, hes0, hes⟩ := h4.2.1 ho
            rw [henvn] at hes0
            rw [happ]
            exact ⟨es0, hes0, hes⟩
          · intro ho
            have h7 := h4.2.2 ho
            rw [henvn] at h7
            exact h7
    · -- APPEND_LIST m t v
      obtain ⟨es0, hes0⟩ := (henv m).2 hlk
      have henv1 : EnvOk created (dictSet env m (.lst (es0 ++ [(t, v)]))) := by
        intro n
        by_cases hn : m = n
        · subst hn
          refine ⟨?_, fun _ => ⟨es0 ++ [(t, v)], lookup_dictSet_self env m _⟩⟩
          intro hc
          rw [hlk] at hc
          exact absurd hc (by simp)
        · have henvn := lookup_dictSet_other env m
            (Value.lst (es0 ++ [(t, v)])) n (fun he => hn he.symm)
          refine ⟨?_, ?_⟩
          · intro hc
            obtain ⟨p, hp⟩ := (henv n).1 hc
            exact ⟨p, by rw [henvn]; exact hp⟩
          · intro hc
            obtain ⟨es, hes⟩ := (henv n).2 hc
            exact ⟨es, by rw [henvn]; exact hes⟩
      obtain ⟨e2, hrun, hchar⟩ :=
        ih created (dictSet env m (.lst (es0 ++ [(t, v)]))) hrest henv1
      refine ⟨e2,
        by rw [replayFrom_cons_appendList env m t v rest hes0]; exact hrun, ?_⟩
      intro n
      by_cases hn : m = n
      · subst hn
        have hck : createdKind rest m = none :=
          createdKind_none_of_created rest created m hrest (by rw [hlk]; rfl)
        have hckc : createdKind (mkAppendList m t v :: rest) m = none := by
          rw [createdKind_cons_mkAppendList]
          exact hck
        refine ⟨?_, ?_, ?_⟩
        · intro hc
          rw [hckc] at hc
          exact absurd hc (by simp)
        · intro hc
          rw [hckc] at hc
          exact absurd hc (by simp)
        · intro _
          have h3 := (hchar m).2.2 hck
          refine ⟨?_, ?_, ?_⟩
          · intro hc
            rw [hlk] at hc
            exact absurd hc (by simp)
          · intro _
            obtain ⟨fs0, hfs0, hfs⟩ := h3.2.1 hlk
            rw [lookup_dictSet_self] at hfs0
            have hfs0eq : fs0 = es0 ++ [(t, v)] := by
              injection hfs0 with h5
              injection h5 with h6
              exact h6.symm
            refine ⟨es0, hes0, ?_⟩
            have happ : appendsTV (mkAppendList m t v :: rest) m =
                (t, v) :: appendsTV rest m := by
              rw [appendsTV_cons, matchAppendTV_mkAppendList, if_pos rfl]
            rw [happ, hfs, hfs0eq, List.append_assoc, List.singleton_append]
          · intro hc
            rw [hlk] at hc
            exact absurd hc (by simp)
      · have hck : createdKind (mkAppendList m t v :: rest) n = createdKind rest n :=
          createdKind_cons_mkAppendList m t v rest n
        have hlst : ∀ k, lastSetTV (mkAppendList m t v :: rest) n k =
            lastSetTV rest n k := by
          intro k
          rw [lastSetTV_cons, matchSetTV_mkAppendList, optOr_none_right]
        have happ : appendsTV (mkAppendList m t v :: rest) n = appendsTV rest n := by
          rw [appendsTV_cons, matchAppendTV_mkAppendList, if_neg hn]
        have henvn : (dictSet env m (.lst (es0 ++ [(t, v)]))).lookup n = env.lookup n :=
          lookup_dictSet_other env m _ n (fun he => hn he.symm)
        obtain ⟨c1, c2, c3⟩ := hchar n
        refine ⟨?_, ?_, ?_⟩
        · intro hc
          rw [hck] at hc
          obtain ⟨p, hp, hpk⟩ := c1 hc
          exact ⟨p, hp, fun k => by rw [hpk k, hlst k]⟩
        · intro hc
          rw [hck] at hc
          rw [happ]
          exact c2 hc
        · intro hc
          rw [hck] at hc
          have h4 := c3 hc
          refine ⟨?_, ?_, ?_⟩
          · intro ho
            obtain ⟨p0, p, hp0, hp, hpk⟩ := h4.1 ho
            rw [henvn] at hp0
            exact ⟨p0, p, hp0, hp, fun k => by rw [hpk k, hlst k]⟩
          · intro ho
            obtain ⟨fs0, hfs0, hfs⟩ := h4.2.1 ho
            rw [henvn] at hfs0
            rw [happ]
            exact ⟨fs0, hfs0, hfs⟩
          · intro ho
            have h7 := h4.2.2 ho
            rw [henvn] at h7
            exact h7

theorem runStmts_append (l₁ l₂ : List PyStmt) :
    ∀ env : Env, runStmts env (l₁ ++ l₂) =
      match runStmts env l₁ with
      | some e => runStmts e l₂
      | none => none := by
  induction l₁ with
  | nil => intro env; rfl
  | cons s rest ih =>
    intro env
    rw [List.cons_append]
    show (match execStmt env s with
      | some e2 => runStmts e2 (rest ++ l₂)
      | none => none) =
      match (match execStmt env s with
        | some e2 => runStmts e2 rest
        | none => none) with
      | some e => runStmts e l₂
      | none => none
    cases hx : execStmt env s with
    | some e2 => exact ih e2
    | none => rfl

theorem replayFrom_eq_runStmts :
    ∀ (l : List Instr) (env : Env),
      replayFrom env l = runStmts env (generate_python_from_ir l) := by
  intro l
  induction l with
  | nil => intro env; rfl
  | cons ins rest ih =>
    intro env
    have hgen : generate_python_from_ir (ins :: rest) =
        stmtsOf ins ++ generate_python_from_ir rest := by
      unfold generate_python_from_ir
      rw [List.flatMap_cons]
    rw [hgen, runStmts_append]
    show (match runStmts env (stmtsOf ins) with
      | some e2 => replayFrom e2 rest
      | none => none) = _
    cases hx : runStmts env (stmtsOf ins) with
    | some e2 => exact ih e2
    | none => rfl

/-- Replay of a well-formed sequence from the empty environment. -/
theorem replay_char (l : List Instr) (h : WFIR l) :
    ∃ e, replay l = some e ∧
      (∀ n : String,
        (createdKind l n = some .objK →
          ∃ p, e.lookup n = some (.obj p) ∧ ∀ k, p.lookup k = lastSetTV l n k) ∧
        (createdKind l n = some .lstK →
          e.lookup n = some (.lst (appendsTV l n))) ∧
        (createdKind l n = none → e.lookup n = none)) := by
  have henv : EnvOk [] [] := fun n =>
    ⟨fun hc => by simp [List.lookup] at hc, fun hc => by simp [List.lookup] at hc⟩
  obtain ⟨e, hrun, hchar⟩ := replayFrom_char l [] [] h henv
  refine ⟨e, ?_, ?_⟩
  · rw [replay, ← replayFrom_eq_runStmts]
    exact hrun
  · intro n
    obtain ⟨c1, c2, c3⟩ := hchar n
    exact ⟨c1, c2, fun hc => (c3 hc).2.2 rfl⟩

/-! Preservation of the per-name write/append summaries by the optimizer. -/

theorem matchSetTV_setKey {ins : Instr} {n k : String} {tv : PyVal × PyVal}
    (h : matchSetTV ins n k = some tv) :
    isSetProp ins = true ∧ setKey ins = (.vstr n, .vstr k) ∧
      tv = (ins.arg 2, ins.arg 3) := by
  unfold matchSetTV at h
  by_cases hc : (ins.opcode == "IR_SET_PROPERTY" && decide (ins.arg 0 = .vstr n)
      && decide (ins.arg 1 = .vstr k)) = true
  · rw [if_pos hc] at h
    simp only [Bool.and_eq_true, decide_eq_true_eq] at hc
    refine ⟨hc.1.1, ?_, (Option.some.inj h).symm⟩
    unfold setKey
    rw [hc.1.2, hc.2]
  · rw [if_neg hc] at h
    exact absurd h (by simp)

theorem matchSetTV_of_setKey {ins : Instr} {n k : String}
    (hs : isSetProp ins = true) (hk : setKey ins = (.vstr n, .vstr k)) :
    matchSetTV ins n k = some (ins.arg 2, ins.arg 3) := by
  unfold matchSetTV
  have h0 : ins.arg 0 = PyVal.vstr n := congrArg Prod.fst hk
  have h1 : ins.arg 1 = PyVal.vstr k := congrArg Prod.snd hk
  have hcond : (ins.opcode == "IR_SET_PROPERTY" && decide (ins.arg 0 = PyVal.vstr n)
      && decide (ins.arg 1 = PyVal.vstr k)) = true := by
    rw [show (ins.opcode == "IR_SET_PROPERTY") = true from hs, h0, h1]
    simp
  rw [if_pos hcond]

theorem lastSetTV_isSome_of_mem :
    ∀ (l : List Instr) (n k : String) (x : Instr), x ∈ l → isSetProp x = true →
      setKey x = (.vstr n, .vstr k) → (lastSetTV l n k).isSome = true := by
  intro l n k x
  induction l with
  | nil => intro hmem; exact absurd hmem (List.not_mem_nil x)
  | cons y rest ih =>
    intro hmem hs hk
    rcases List.mem_cons.mp hmem with rfl | hmem2
    · rw [lastSetTV_cons, matchSetTV_of_setKey hs hk]
      cases lastSetTV rest n k <;> rfl
    · rw [lastSetTV_cons]
      have hsome := ih hmem2 hs hk
      cases hr : lastSetTV rest n k with
      | some w => rfl
      | none => rw [hr] at hsome; exact absurd hsome (by simp)

theorem lastSetTV_lastWriteFilter :
    ∀ (l : List Instr) (n k : String),
      lastSetTV (lastWriteFilter l) n k = lastSetTV l n k := by
  intro l n k
  induction l with
  | nil => rfl
  | cons ins rest ih =>
    by_cases hd : (isSetProp ins && hasLaterSet (setKey ins) rest) = true
    · rw [show lastWriteFilter (ins :: rest) = lastWriteFilter rest by
        simp [lastWriteFilter, hd]]
      rw [ih, lastSetTV_cons]
      cases hm : matchSetTV ins n k with
      | none => rw [optOr_none_right]
      | some tv =>
        obtain ⟨hs, hk, _⟩ := matchSetTV_setKey hm
        have hlater : hasLaterSet (setKey ins) rest = true := by
          simp only [Bool.and_eq_true] at hd
          exact hd.2
        obtain ⟨x, hx, hxp⟩ := List.any_eq_true.mp hlater
        simp only [Bool.and_eq_true, decide_eq_true_eq] at hxp
        have hsome := lastSetTV_isSome_of_mem rest n k x hx hxp.1 (hxp.2.trans hk)
        obtain ⟨w, hw⟩ := Option.isSome_iff_exists.mp hsome
        rw [hw]
        rfl
    · rw [show lastWriteFilter (ins :: rest) = ins :: lastWriteFilter rest by
        simp [lastWriteFilter, hd]]
      rw [lastSetTV_cons, lastSetTV_cons, ih]

theorem countP_matchSet_le (z : List Instr) (hg : goodSets z) (n k : String) :
    z.countP (fun ins => (matchSetTV ins n k).isSome) ≤ 1 := by
  have hle : z.countP (fun ins => (matchSetTV ins n k).isSome) ≤
      z.countP (fun ins => isSetProp ins && decide (setKey ins = (.vstr n, .vstr k))) := by
    apply List.countP_mono_left
    intro a _ ha
    obtain ⟨tv, htv⟩ := Option.isSome_iff_exists.mp ha
    obtain ⟨hs, hk, _⟩ := matchSetTV_setKey htv
    simp [hs, hk]
  exact le_trans hle (hg ((PyVal.vstr n, PyVal.vstr k)))

theorem lastSetTV_eq_none_of_all :
    ∀ (l : List Instr) (n k : String), (∀ x ∈ l, matchSetTV x n k = none) →
      lastSetTV l n k = none := by
  intro l n k
  induction l with
  | nil => intro _; rfl
  | cons y rest ih =>
    intro h
    rw [lastSetTV_cons, h y (List.mem_cons_self y rest), optOr_none_right]
    exact ih (fun x hx => h x (List.mem_cons_of_mem y hx))

theorem lastSetTV_of_filter_singleton :
    ∀ (l : List Instr) (n k : String) (a : Instr),
      l.filter (fun ins => (matchSetTV ins n k).isSome) = [a] →
      lastSetTV l n k = matchSetTV a n k := by
  intro l n k
  induction l with
  | nil => intro a h; simp at h
  | cons y rest ih =>
    intro a h
    rw [List.filter_cons] at h
    by_cases hy : (matchSetTV y n k).isSome = true
    · rw [if_pos hy] at h
      injection h with h1 h2
      subst h1
      have hrest : ∀ x ∈ rest, matchSetTV x n k = none := by
        intro x hx
        have hnp := List.filter_eq_nil_iff.mp h2 x hx
        cases hm : matchSetTV x n k with
        | none => rfl
        | some w => exact absurd (by rw [hm]; rfl) hnp
      rw [lastSetTV_cons, lastSetTV_eq_none_of_all rest n k hrest]
      rfl
    · rw [if_neg hy] at h
      have hnone : matchSetTV y n k = none := by
        cases hm : matchSetTV y n k with
        | none => rfl
        | some w => exact absurd (by rw [hm]; rfl) hy
      rw [lastSetTV_cons, ih a h, hnone, optOr_none_right]

theorem lastSetTV_perm_of_unique {g z : List Instr} (hperm : List.Perm g z)
    (hg : goodSets z) (n k : String) :
    lastSetTV g n k = lastSetTV z n k := by
  have hcnt := countP_matchSet_le z hg n k
  rcases Nat.le_one_iff_eq_zero_or_eq_one.mp hcnt with h0 | h1
  · have hz : ∀ x ∈ z, matchSetTV x n k = none := by
      intro x hx
      have hnp := List.countP_eq_zero.mp h0 x hx
      cases hm : matchSetTV x n k with
      | none => rfl
      | some w => exact absurd (by rw [hm]; rfl) hnp
    have hgz : ∀ x ∈ g, matchSetTV x n k = none :=
      fun x hx => hz x (hperm.mem_iff.mp hx)
    rw [lastSetTV_eq_none_of_all g n k hgz, lastSetTV_eq_none_of_all z n k hz]
  · have hfz : (z.filter (fun ins => (matchSetTV ins n k).isSome)).length = 1 := by
      rw [← List.countP_eq_length_filter]
      exact h1
    obtain ⟨a, ha⟩ := List.length_eq_one.mp hfz
    have hfg_perm := hperm.filter (fun ins => (matchSetTV ins n k).isSome)
    rw [ha] at hfg_perm
    have hfg : g.filter (fun ins => (matchSetTV ins n k).isSome) = [a] := by
      obtain ⟨b, hb⟩ := List.length_eq_one.mp
        (show (g.filter (fun ins => (matchSetTV ins n k).isSome)).length = 1 by
          rw [hfg_perm.length_eq]; rfl)
      have hba : b = a := by
        have hbmem : b ∈ g.filter (fun ins => (matchSetTV ins n k).isSome) := by
          rw [hb]
          exact List.mem_cons_self b []
        exact List.mem_singleton.mp (hfg_perm.mem_iff.mp hbmem)
      rw [hb, hba]
    rw [lastSetTV_of_filter_singleton g n k a hfg,
      lastSetTV_of_filter_singleton z n k a ha]

theorem matchAppendTV_none_of_setProp {ins : Instr} (h : isSetProp ins = true)
    (n : String) : matchAppendTV ins n = none := by
  unfold matchAppendTV
  have hop : ins.opcode = "IR_SET_PROPERTY" := eq_of_beq h
  rw [if_neg]
  simp [hop]

theorem appendsTV_lastWriteFilter :
    ∀ (l : List Instr) (n : String),
      appendsTV (lastWriteFilter l) n = appendsTV l n := by
  intro l n
  induction l with
  | nil => rfl
  | cons ins rest ih =>
    by_cases hd : (isSetProp ins && hasLaterSet (setKey ins) rest) = true
    · rw [show lastWriteFilter (ins :: rest) = lastWriteFilter rest by
        simp [lastWriteFilter, hd]]
      have hs : isSetProp ins = true := by
        simp only [Bool.and_eq_true] at hd
        exact hd.1
      rw [ih, appendsTV_cons, matchAppendTV_none_of_setProp hs]
    · rw [show lastWriteFilter (ins :: rest) = ins :: lastWriteFilter rest by
        simp [lastWriteFilter, hd]]
      rw [appendsTV_cons, appendsTV_cons, ih]

theorem appendsTV_eq_filterMap :
    ∀ (l : List Instr) (n : String),
      appendsTV l n = l.filterMap (fun ins => matchAppendTV ins n) := by
  intro l n
  induction l with
  | nil => rfl
  | cons ins rest ih =>
    rw [appendsTV_cons, List.filterMap_cons]
    cases hm : matchAppendTV ins n with
    | none => simp [hm, ih]
    | some tv => simp [hm, ih]

theorem filterMap_filter_support {α β : Type} (f : α → Option β) (p : α → Bool)
    (h : ∀ a, (f a).isSome = true → p a = true) :
    ∀ l : List α, (l.filter p).filterMap f = l.filterMap f := by
  intro l
  induction l with
  | nil => rfl
  | cons y rest ih =>
    rw [List.filter_cons]
    by_cases hp : p y = true
    · rw [if_pos hp, List.filterMap_cons, List.filterMap_cons]
      cases hm : f y with
      | none => simp [hm, ih]
      | some w => simp [hm, ih]
    · rw [if_neg hp]
      have hf : f y = none := by
        cases hm : f y with
        | none => rfl
        | some w => exact absurd (h y (by rw [hm]; rfl)) hp
      rw [ih, List.filterMap_cons, hf]

theorem appendsTV_opsFor (l : List Instr) (n : String) :
    appendsTV l n = appendsTV (opsFor (l.filter isOperation) (.vstr n)) n := by
  rw [appendsTV_eq_filterMap, appendsTV_eq_filterMap]
  have h1 : opsFor (l.filter isOperation) (PyVal.vstr n) =
      l.filter (fun a => (entityName a == PyVal.vstr n) && isOperation a) := by
    unfold opsFor
    rw [List.filter_filter]
  rw [h1]
  have hsup : ∀ a : Instr, ((matchAppendTV a n).isSome) = true →
      ((entityName a == PyVal.vstr n) && isOperation a) = true := by
    intro a ha
    obtain ⟨tv, htv⟩ := Option.isSome_iff_exists.mp ha
    unfold matchAppendTV at htv
    by_cases hc : (a.opcode == "IR_APPEND_LIST" && decide (a.arg 0 = .vstr n)) = true
    · simp only [Bool.and_eq_true, decide_eq_true_eq] at hc
      have hop : isOperation a = true := by
        unfold isOperation
        rw [hc.1]
        simp
      have hen : (entityName a == PyVal.vstr n) = true := by
        rw [show entityName a = a.arg 0 from rfl, hc.2]
        simp
      rw [hen, hop]
      rfl
    · rw [if_neg hc] at htv
      exact absurd htv (by simp)
  exact (filterMap_filter_support _ _ hsup l).symm

theorem appendsTV_group (z : List Instr) (hoth : z.filter isOther = [])
    (hnd : ((z.filter isCreation).map entityName).Nodup) (n : String) :
    appendsTV (group_instructions z) n = appendsTV z n := by
  rw [appendsTV_opsFor (group_instructions z) n, grouped_opsFor z hoth hnd,
    ← appendsTV_opsFor z n]

/-! Preservation of creation kinds. -/

theorem createdKind_cons_any (ins : Instr) (rest : List Instr) (n : String) :
    createdKind (ins :: rest) n =
      if ins.opcode == "IR_CREATE_OBJECT" && decide (ins.arg 0 = .vstr n) then
        some .objK
      else if ins.opcode == "IR_CREATE_LIST" && decide (ins.arg 0 = .vstr n) then
        some .lstK
      else createdKind rest n := rfl

theorem createdKind_filter_creation :
    ∀ (l : List Instr) (n : String),
      createdKind l n = createdKind (l.filter isCreation) n := by
  intro l n
  induction l with
  | nil => rfl
  | cons ins rest ih =>
    rw [List.filter_cons]
    by_cases hc : isCreation ins = true
    · rw [if_pos hc, createdKind_cons_any, createdKind_cons_any]
      by_cases h1 : (ins.opcode == "IR_CREATE_OBJECT" && decide (ins.arg 0 = .vstr n)) = true
      · rw [if_pos h1, if_pos h1]
      · rw [if_neg h1, if_neg h1]
        by_cases h2 : (ins.opcode == "IR_CREATE_LIST" && decide (ins.arg 0 = .vstr n)) = true
        · rw [if_pos h2, if_pos h2]
        · rw [if_neg h2, if_neg h2, ih]
    · rw [if_neg hc]
      have hco : (ins.opcode == "IR_CREATE_OBJECT") = false := by
        cases hb : (ins.opcode == "IR_CREATE_OBJECT") with
        | false => rfl
        | true => exact absurd (show isCreation ins = true by unfold isCreation; rw [hb]; rfl) hc
      have hcl : (ins.opcode == "IR_CREATE_LIST") = false := by
        cases hb : (ins.opcode == "IR_CREATE_LIST") with
        | false => rfl
        | true => exact absurd (show isCreation ins = true by unfold isCreation; rw [hb]; simp) hc
      rw [createdKind_cons_any, hco, hcl]
      simp [ih]

theorem createdKind_group (z : List Instr) (hoth : z.filter isOther = [])
    (n : String) :
    createdKind (group_instructions z) n = createdKind z n := by
  rw [createdKind_filter_creation, grouped_filter_creation z hoth,
    ← createdKind_filter_creation]

theorem createdKind_remove (l : List Instr) (n : String) :
    createdKind (remove_redundant_sets l) n = createdKind l n := by
  rw [remove_redundant_sets_eq, createdKind_filter_creation,
    lastWriteFilter_filter isCreation (fun _ hi => setProp_not_creation hi),
    ← createdKind_filter_creation]

/-! More reduction lemmas on instruction shapes. -/

theorem isCreation_mkCreateObject (n : String) :
    isCreation (mkCreateObject n) = true := rfl

theorem isCreation_mkCreateList (n : String) :
    isCreation (mkCreateList n) = true := rfl

theorem isCreation_mkSetProperty (n k : String) (t v : PyVal) :
    isCreation (mkSetProperty n k t v) = false := rfl

theorem isCreation_mkAppendList (n : String) (t v : PyVal) :
    isCreation (mkAppendList n t v) = false := rfl

theorem isOperation_mkCreateObject (n : String) :
    isOperation (mkCreateObject n) = false := rfl

theorem isOperation_mkCreateList (n : String) :
    isOperation (mkCreateList n) = false := rfl

theorem isOperation_mkSetProperty (n k : String) (t v : PyVal) :
    isOperation (mkSetProperty n k t v) = true := rfl

theorem isOperation_mkAppendList (n : String) (t v : PyVal) :
    isOperation (mkAppendList n t v) = true := rfl

theorem isSetProp_mkCreateObject (n : String) :
    isSetProp (mkCreateObject n) = false := rfl

theorem isSetProp_mkCreateList (n : String) :
    isSetProp (mkCreateList n) = false := rfl

theorem isSetProp_mkSetProperty (n k : String) (t v : PyVal) :
    isSetProp (mkSetProperty n k t v) = true := rfl

theorem isSetProp_mkAppendList (n : String) (t v : PyVal) :
    isSetProp (mkAppendList n t v) = false := rfl

/-! Creation pairs and well-formedness facts. -/

/-- The creation instruction of a `(name, kind)` pair. -/
def creatorOf : String × EKind → Instr
  | (n, EKind.objK) => mkCreateObject n
  | (n, EKind.lstK) => mkCreateList n

/-- The `(name, kind)` pairs of the well-shaped creation instructions, in
order. -/
def creationPairs : List Instr → List (String × EKind)
  | [] => []
  | ins :: rest =>
    if ins.opcode == "IR_CREATE_OBJECT" then
      match ins.args with
      | [PyVal.vstr n] => (n, .objK) :: creationPairs rest
      | _ => creationPairs rest
    else if ins.opcode == "IR_CREATE_LIST" then
      match ins.args with
      | [PyVal.vstr n] => (n, .lstK) :: creationPairs rest
      | _ => creationPairs rest
    else creationPairs rest

theorem creationPairs_cons_mkCreateObject (n : String) (rest : List Instr) :
    creationPairs (mkCreateObject n :: rest) = (n, .objK) :: creationPairs rest := rfl

theorem creationPairs_cons_mkCreateList (n : String) (rest : List Instr) :
    creationPairs (mkCreateList n :: rest) = (n, .lstK) :: creationPairs rest := rfl

theorem creationPairs_cons_mkSetProperty (n k : String) (t v : PyVal)
    (rest : List Instr) :
    creationPairs (mkSetProperty n k t v :: rest) = creationPairs rest := rfl

theorem creationPairs_cons_mkAppendList (n : String) (t v : PyVal)
    (rest : List Instr) :
    creationPairs (mkAppendList n t v :: rest) = creationPairs rest := rfl

theorem entityName_creatorOf (p : String × EKind) :
    entityName (creatorOf p) = .vstr p.1 := by
  obtain ⟨n, k⟩ := p
  cases k <;> rfl

theorem lookup_cons_none_inv {β : Type} {c : List (String × β)} {m : String}
    {x : β} {q : String} (h : (((m, x) :: c).lookup q) = none) :
    q ≠ m ∧ c.lookup q = none := by
  rw [List.lookup] at h
  cases hb : (q == m) with
  | true => rw [hb] at h; exact absurd h (by simp)
  | false =>
    rw [hb] at h
    refine ⟨?_, h⟩
    intro he
    rw [he] at hb
    simp at hb

theorem lookup_of_mem_nodup {β : Type} :
    ∀ (l : List (String × β)), (l.map Prod.fst).Nodup →
      ∀ (a : String) (b : β), (a, b) ∈ l → l.lookup a = some b := by
  intro l
  induction l with
  | nil => intro _ a b h; exact absurd h (List.not_mem_nil _)
  | cons p rest ih =>
    obtain ⟨k0, v0⟩ := p
    intro hnd a b hmem
    have hk0 : k0 ∉ (rest.map Prod.fst) := by
      rw [List.map_cons] at hnd
      exact (List.nodup_cons.mp hnd).1
    rcases List.mem_cons.mp hmem with heq | hmem2
    · injection heq with h1 h2
      subst h1
      subst h2
      exact lookup_cons_self rest a b
    · have hne : a ≠ k0 := by
        intro he
        subst he
        exact hk0 (List.mem_map.mpr ⟨(a, b), hmem2, rfl⟩)
      rw [lookup_cons_ne rest k0 a v0 (fun he => hne he.symm)]
      rw [List.map_cons] at hnd
      exact ih (List.nodup_cons.mp hnd).2 a b hmem2

/-- Flattened facts extracted from a well-formedness derivation. -/
theorem wf_facts :
    ∀ (l : List Instr) (c : List (String × EKind)), wfFrom c l = true →
      ((creationPairs l).map Prod.fst).Nodup ∧
      (∀ p ∈ creationPairs l, c.lookup p.1 = none) ∧
      l.filter isCreation = (creationPairs l).map creatorOf ∧
      (∀ op ∈ l, isOperation op = true →
        (∃ n k t v, op = mkSetProperty n k t v ∧
          (c.lookup n = some .objK ∨ (n, EKind.objK) ∈ creationPairs l)) ∨
        (∃ n t v, op = mkAppendList n t v ∧
          (c.lookup n = some .lstK ∨ (n, EKind.lstK) ∈ creationPairs l))) := by
  intro l
  induction l with
  | nil =>
    intro c _
    exact ⟨List.nodup_nil, fun p hp => absurd hp (List.not_mem_nil p), rfl,
      fun op hop => absurd hop (List.not_mem_nil op)⟩
  | cons ins rest ih =>
    intro c hwf
    rcases wfFrom_cons_inv hwf with
      ⟨m, rfl, hlk, hrest⟩ | ⟨m, rfl, hlk, hrest⟩ |
      ⟨m, key, t, v, rfl, hlk, hrest⟩ | ⟨m, t, v, rfl, hlk, hrest⟩
    · obtain ⟨hnd, hdisj, hfilt, hops⟩ := ih ((m, .objK) :: c) hrest
      rw [creationPairs_cons_mkCreateObject]
      refine ⟨?_, ?_, ?_, ?_⟩
      · rw [List.map_cons]
        refine List.nodup_cons.mpr ⟨?_, hnd⟩
        intro hmem
        obtain ⟨p, hp, hp1⟩ := List.mem_map.mp hmem
        have hnone := hdisj p hp
        rw [hp1, lookup_cons_self] at hnone
        exact absurd hnone (by simp)
      · intro p hp
        rcases List.mem_cons.mp hp with rfl | hp2
        · exact hlk
        · exact (lookup_cons_none_inv (hdisj p hp2)).2
      · rw [List.filter_cons, if_pos (isCreation_mkCreateObject m), hfilt, List.map_cons]
        rfl
      · intro op hop hoper
        rcases List.mem_cons.mp hop with rfl | hop2
        · rw [isOperation_mkCreateObject] at hoper
          exact absurd hoper (by simp)
        · rcases hops op hop2 hoper with ⟨n, k2, t2, v2, rfl, hd⟩ | ⟨n, t2, v2, rfl, hd⟩
          · left
            refine ⟨n, k2, t2, v2, rfl, ?_⟩
            rcases hd with hd | hd
            · by_cases hnm : n = m
              · subst hnm
                exact Or.inr (List.mem_cons_self _ _)
              · rw [lookup_cons_ne c m n EKind.objK (fun he => hnm he.symm)] at hd
                exact Or.inl hd
            · exact Or.inr (List.mem_cons_of_mem _ hd)
          · right
            refine ⟨n, t2, v2, rfl, ?_⟩
            rcases hd with hd | hd
            · by_cases hnm : n = m
              · subst hnm
                rw [lookup_cons_self] at hd
                exact absurd hd (by simp)
              · rw [lookup_cons_ne c m n EKind.objK (fun he => hnm he.symm)] at hd
                exact Or.inl hd
            · exact Or.inr (List.mem_cons_of_mem _ hd)
    · obtain ⟨hnd, hdisj, hfilt, hops⟩ := ih ((m, .lstK) :: c) hrest
      rw [creationPairs_cons_mkCreateList]
      refine ⟨?_, ?_, ?_, ?_⟩
      · rw [List.map_cons]
        refine List.nodup_cons.mpr ⟨?_, hnd⟩
        intro hmem
        obtain ⟨p, hp, hp1⟩ := List.mem_map.mp hmem
        have hnone := hdisj p hp
        rw [hp1, lookup_cons_self] at hnone
        exact absurd hnone (by simp)
      · intro p hp
        rcases List.mem_cons.mp hp with rfl | hp2
        · exact hlk
        · exact (lookup_cons_none_inv (hdisj p hp2)).2
      · rw [List.filter_cons, if_pos (isCreation_mkCreateList m), hfilt, List.map_cons]
        rfl
      · intro op hop hoper
        rcases List.mem_cons.mp hop with rfl | hop2
        · rw [isOperation_mkCreateList] at hoper
          exact absurd hoper (by simp)
        · rcases hops op hop2 hoper with ⟨n, k2, t2, v2, rfl, hd⟩ | ⟨n, t2, v2, rfl, hd⟩
          · left
            refine ⟨n, k2, t2, v2, rfl, ?_⟩
            rcases hd with hd | hd
            · by_cases hnm : n = m
              · subst hnm
                rw [lookup_cons_self] at hd
                exact absurd hd (by simp)
              · rw [lookup_cons_ne c m n EKind.lstK (fun he => hnm he.symm)] at hd
                exact Or.inl hd
            · exact Or.inr (List.mem_cons_of_mem _ hd)
          · right
            refine ⟨n, t2, v2, rfl, ?_⟩
            rcases hd with hd | hd
            · by_cases hnm : n = m
              · subst hnm
                exact Or.inr (List.mem_cons_self _ _)
              · rw [lookup_cons_ne c m n EKind.lstK (fun he => hnm he.symm)] at hd
                exact Or.inl hd
            · exact Or.inr (List.mem_cons_of_mem _ hd)
    · obtain ⟨hnd, hdisj, hfilt, hops⟩ := ih c hrest
      rw [creationPairs_cons_mkSetProperty]
      refine ⟨hnd, hdisj, ?_, ?_⟩
      · rw [List.filter_cons, if_neg (by rw [isCreation_mkSetProperty]; simp)]
        exact hfilt
      · intro op hop hoper
        rcases List.mem_cons.mp hop with rfl | hop2
        · exact Or.inl ⟨m, key, t, v, rfl, Or.inl hlk⟩
        · exact hops op hop2 hoper
    · obtain ⟨hnd, hdisj, hfilt, hops⟩ := ih c hrest
      rw [creationPairs_cons_mkAppendList]
      refine ⟨hnd, hdisj, ?_, ?_⟩
      · rw [List.filter_cons, if_neg (by rw [isCreation_mkAppendList]; simp)]
        exact hfilt
      · intro op hop hoper
        rcases List.mem_cons.mp hop with rfl | hop2
        · exact Or.inr ⟨m, t, v, rfl, Or.inl hlk⟩
        · exact hops op hop2 hoper

/-! The optimizer preserves well-formedness. -/

theorem wfFrom_cons_mkCreateObject (c : List (String × EKind)) (n : String)
    (rest : List Instr) :
    wfFrom c (mkCreateObject n :: rest) =
      (!(c.lookup n).isSome && wfFrom ((n, .objK) :: c) rest) := rfl

theorem wfFrom_cons_mkCreateList (c : List (String × EKind)) (n : String)
    (rest : List Instr) :
    wfFrom c (mkCreateList n :: rest) =
      (!(c.lookup n).isSome && wfFrom ((n, .lstK) :: c) rest) := rfl

theorem wfFrom_cons_mkSetProperty (c : List (String × EKind)) (n k : String)
    (t v : PyVal) (rest : List Instr) :
    wfFrom c (mkSetProperty n k t v :: rest) =
      ((c.lookup n == some .objK) && wfFrom c rest) := rfl

theorem wfFrom_cons_mkAppendList (c : List (String × EKind)) (n : String)
    (t v : PyVal) (rest : List Instr) :
    wfFrom c (mkAppendList n t v :: rest) =
      ((c.lookup n == some .lstK) && wfFrom c rest) := rfl

theorem wf_no_other :
    ∀ (l : List Instr) (c : List (String × EKind)), wfFrom c l = true →
      l.filter isOther = [] := by
  intro l
  induction l with
  | nil => intro c _; rfl
  | cons ins rest ih =>
    intro c hwf
    rcases wfFrom_cons_inv hwf with
      ⟨m, rfl, _, hrest⟩ | ⟨m, rfl, _, hrest⟩ |
      ⟨m, key, t, v, rfl, _, hrest⟩ | ⟨m, t, v, rfl, _, hrest⟩
    · rw [List.filter_cons,
        if_neg (by rw [show isOther (mkCreateObject m) = false from rfl]; simp)]
      exact ih _ hrest
    · rw [List.filter_cons,
        if_neg (by rw [show isOther (mkCreateList m) = false from rfl]; simp)]
      exact ih _ hrest
    · rw [List.filter_cons,
        if_neg (by rw [show isOther (mkSetProperty m key t v) = false from rfl]; simp)]
      exact ih _ hrest
    · rw [List.filter_cons,
        if_neg (by rw [show isOther (mkAppendList m t v) = false from rfl]; simp)]
      exact ih _ hrest

theorem wfFrom_lastWriteFilter :
    ∀ (l : List Instr) (c : List (String × EKind)), wfFrom c l = true →
      wfFrom c (lastWriteFilter l) = true := by
  intro l
  induction l with
  | nil => intro c h; exact h
  | cons ins rest ih =>
    intro c hwf
    rcases wfFrom_cons_inv hwf with
      ⟨m, rfl, hlk, hrest⟩ | ⟨m, rfl, hlk, hrest⟩ |
      ⟨m, key, t, v, rfl, hlk, hrest⟩ | ⟨m, t, v, rfl, hlk, hrest⟩
    · rw [show lastWriteFilter (mkCreateObject m :: rest) =
          mkCreateObject m :: lastWriteFilter rest by
        simp [lastWriteFilter, isSetProp_mkCreateObject]]
      rw [wfFrom_cons_mkCreateObject, hlk]
      simp only [Option.isSome_none, Bool.not_false, Bool.true_and]
      exact ih _ hrest
    · rw [show lastWriteFilter (mkCreateList m :: rest) =
          mkCreateList m :: lastWriteFilter rest by
        simp [lastWriteFilter, isSetProp_mkCreateList]]
      rw [wfFrom_cons_mkCreateList, hlk]
      simp only [Option.isSome_none, Bool.not_false, Bool.true_and]
      exact ih _ hrest
    · by_cases hd : hasLaterSet (setKey (mkSetProperty m key t v)) rest = true
      · rw [show lastWriteFilter (mkSetProperty m key t v :: rest) =
            lastWriteFilter rest by
          simp [lastWriteFilter, isSetProp_mkSetProperty, hd]]
        exact ih c hrest
      · rw [show lastWriteFilter (mkSetProperty m key t v :: rest) =
            mkSetProperty m key t v :: lastWriteFilter rest by
          simp [lastWriteFilter, hd]]
        rw [wfFrom_cons_mkSetProperty, hlk]
        simp only [beq_self_eq_true, Bool.true_and]
        exact ih c hrest
    · rw [show lastWriteFilter (mkAppendList m t v :: rest) =
          mkAppendList m t v :: lastWriteFilter rest by
        simp [lastWriteFilter, isSetProp_mkAppendList]]
      rw [wfFrom_cons_mkAppendList, hlk]
      simp only [beq_self_eq_true, Bool.true_and]
      exact ih c hrest

/-- A block of operations valid under `c` does not change the walk state. -/
theorem wfFrom_ops_seg :
    ∀ (seg tail : List Instr) (c : List (String × EKind)),
      (∀ op ∈ seg,
        (∃ n k t v, op = mkSetProperty n k t v ∧ c.lookup n = some .objK) ∨
        (∃ n t v, op = mkAppendList n t v ∧ c.lookup n = some .lstK)) →
      wfFrom c (seg ++ tail) = wfFrom c tail := by
  intro seg
  induction seg with
  | nil => intro tail c _; rfl
  | cons op rest ih =>
    intro tail c hops
    rcases hops op (List.mem_cons_self op rest) with
      ⟨n, k, t, v, rfl, hlk⟩ | ⟨n, t, v, rfl, hlk⟩
    · rw [List.cons_append, wfFrom_cons_mkSetProperty, hlk]
      simp only [beq_self_eq_true, Bool.true_and]
      exact ih tail c (fun x hx => hops x (List.mem_cons_of_mem _ hx))
    · rw [List.cons_append, wfFrom_cons_mkAppendList, hlk]
      simp only [beq_self_eq_true, Bool.true_and]
      exact ih tail c (fun x hx => hops x (List.mem_cons_of_mem _ hx))

theorem mem_opsFor {ops : List Instr} {t : PyVal} {op : Instr}
    (h : op ∈ opsFor ops t) : op ∈ ops ∧ entityName op = t := by
  have h2 := List.mem_filter.mp h
  refine ⟨h2.1, ?_⟩
  have := h2.2
  simpa using this

/-- The grouped reconstruction of pairwise-distinct creations with their
operation buckets is well-formed. -/
theorem wf_grouped :
    ∀ (ps : List (String × EKind)) (c : List (String × EKind)) (ops : List Instr),
      (ps.map Prod.fst).Nodup →
      (∀ p ∈ ps, c.lookup p.1 = none) →
      (∀ op ∈ ops,
        (∃ n k t v, op = mkSetProperty n k t v ∧
          (c.lookup n = some .objK ∨ (n, EKind.objK) ∈ ps)) ∨
        (∃ n t v, op = mkAppendList n t v ∧
          (c.lookup n = some .lstK ∨ (n, EKind.lstK) ∈ ps))) →
      wfFrom c ((ps.map creatorOf).flatMap
        (fun ci => ci :: opsFor ops (entityName ci))) = true := by
  intro ps
  induction ps with
  | nil => intro c ops _ _ _; rfl
  | cons p rest ih =>
    obtain ⟨n0, k0⟩ := p
    intro c ops hnd hdisj hops
    have hn0 : c.lookup n0 = none := hdisj (n0, k0) (List.mem_cons_self _ _)
    have hn0rest : n0 ∉ rest.map Prod.fst := by
      rw [List.map_cons] at hnd
      exact (List.nodup_cons.mp hnd).1
    have hndrest : (rest.map Prod.fst).Nodup := by
      rw [List.map_cons] at hnd
      exact (List.nodup_cons.mp hnd).2
    have hbucket : ∀ op ∈ opsFor ops (PyVal.vstr n0),
        (∃ n k t v, op = mkSetProperty n k t v ∧
          ((n0, k0) :: c).lookup n = some .objK) ∨
        (∃ n t v, op = mkAppendList n t v ∧
          ((n0, k0) :: c).lookup n = some .lstK) := by
      intro op hop
      obtain ⟨hopmem, hopent⟩ := mem_opsFor hop
      rcases hops op hopmem with ⟨n, k, t, v, rfl, hd⟩ | ⟨n, t, v, rfl, hd⟩
      · have hnn0 : n = n0 := by
          rw [show entityName (mkSetProperty n k t v) = PyVal.vstr n from rfl] at hopent
          injection hopent
        subst hnn0
        have hk0 : k0 = EKind.objK := by
          rcases hd with hd | hd
          · rw [hn0] at hd
            exact absurd hd (by simp)
          · rcases List.mem_cons.mp hd with heq | hmem
            · injection heq with _ h2
              exact h2.symm
            · exact absurd (List.mem_map.mpr ⟨(n, EKind.objK), hmem, rfl⟩) hn0rest
        left
        exact ⟨n, k, t, v, rfl, by rw [hk0]; exact lookup_cons_self c n EKind.objK⟩
      · have hnn0 : n = n0 := by
          rw [show entityName (mkAppendList n t v) = PyVal.vstr n from rfl] at hopent
          injection hopent
        subst hnn0
        have hk0 : k0 = EKind.lstK := by
          rcases hd with hd | hd
          · rw [hn0] at hd
            exact absurd hd (by simp)
          · rcases List.mem_cons.mp hd with heq | hmem
            · injection heq with _ h2
              exact h2.symm
            · exact absurd (List.mem_map.mpr ⟨(n, EKind.lstK), hmem, rfl⟩) hn0rest
        right
        exact ⟨n, t, v, rfl, by rw [hk0]; exact lookup_cons_self c n EKind.lstK⟩
    have hdisj2 : ∀ p ∈ rest, (((n0, k0) :: c).lookup p.1) = none := by
      intro p hp
      have hne : p.1 ≠ n0 := by
        intro he
        exact hn0rest (he ▸ List.mem_map.mpr ⟨p, hp, rfl⟩)
      rw [lookup_cons_ne c n0 p.1 k0 (fun he => hne he.symm)]
      exact hdisj p (List.mem_cons_of_mem _ hp)
    have hops2 : ∀ op ∈ ops,
        (∃ n k t v, op = mkSetProperty n k t v ∧
          ((((n0, k0) :: c).lookup n = some .objK) ∨ (n, EKind.objK) ∈ rest)) ∨
        (∃ n t v, op = mkAppendList n t v ∧
          ((((n0, k0) :: c).lookup n = some .lstK) ∨ (n, EKind.lstK) ∈ rest)) := by
      intro op hop
      rcases hops op hop with ⟨n, k, t, v, rfl, hd⟩ | ⟨n, t, v, rfl, hd⟩
      · left
        refine ⟨n, k, t, v, rfl, ?_⟩
        rcases hd with hd | hd
        · have hne : n ≠ n0 := by
            intro he
            rw [he, hn0] at hd
            exact absurd hd (by simp)
          rw [lookup_cons_ne c n0 n k0 (fun he => hne he.symm)]
          exact Or.inl hd
        · rcases List.mem_cons.mp hd with heq | hmem
          · injection heq with h1 h2
            subst h1
            rw [← h2, lookup_cons_self]
            exact Or.inl rfl
          · exact Or.inr hmem
      · right
        refine ⟨n, t, v, rfl, ?_⟩
        rcases hd with hd | hd
        · have hne : n ≠ n0 := by
            intro he
            rw [he, hn0] at hd
            exact absurd hd (by simp)
          rw [lookup_cons_ne c n0 n k0 (fun he => hne he.symm)]
          exact Or.inl hd
        · rcases List.mem_cons.mp hd with heq | hmem
          · injection heq with h1 h2
            subst h1
            rw [← h2, lookup_cons_self]
            exact Or.inl rfl
          · exact Or.inr hmem
    rw [List.map_cons, List.flatMap_cons]
    cases k0 with
    | objK =>
      rw [show creatorOf (n0, EKind.objK) = mkCreateObject n0 from rfl]
      rw [List.cons_append, wfFrom_cons_mkCreateObject, hn0]
      simp only [Option.isSome_none, Bool.not_false, Bool.true_and]
      rw [show entityName (mkCreateObject n0) = PyVal.vstr n0 from rfl]
      rw [wfFrom_ops_seg (opsFor ops (PyVal.vstr n0)) _ ((n0, EKind.objK) :: c) hbucket]
      exact ih ((n0, EKind.objK) :: c) ops hndrest hdisj2 hops2
    | lstK =>
      rw [show creatorOf (n0, EKind.lstK) = mkCreateList n0 from rfl]
      rw [List.cons_append, wfFrom_cons_mkCreateList, hn0]
      simp only [Option.isSome_none, Bool.not_false, Bool.true_and]
      rw [show entityName (mkCreateList n0) = PyVal.vstr n0 from rfl]
      rw [wfFrom_ops_seg (opsFor ops (PyVal.vstr n0)) _ ((n0, EKind.lstK) :: c) hbucket]
      exact ih ((n0, EKind.lstK) :: c) ops hndrest hdisj2 hops2

theorem wf_nodup_entityNames (z : List Instr) (hz : wfFrom [] z = true) :
    ((z.filter isCreation).map entityName).Nodup := by
  obtain ⟨hnd, _, hfilt, _⟩ := wf_facts z [] hz
  rw [hfilt, List.map_map]
  have hcomp : (entityName ∘ creatorOf) = fun p : String × EKind => PyVal.vstr p.1 := by
    funext p
    exact entityName_creatorOf p
  rw [hcomp]
  have hsplit : (creationPairs z).map (fun p : String × EKind => PyVal.vstr p.1) =
      ((creationPairs z).map Prod.fst).map PyVal.vstr := by
    rw [List.map_map]
    rfl
  rw [hsplit]
  exact List.Nodup.map (fun a b hab => PyVal.vstr.inj hab) hnd

theorem wf_orphans_nil (z : List Instr) (hz : wfFrom [] z = true) :
    (z.filter isOperation).filter
      (fun op => decide (¬ entityName op ∈ (z.filter isCreation).map entityName)) = [] := by
  obtain ⟨_, _, hfilt, hops⟩ := wf_facts z [] hz
  rw [List.filter_eq_nil_iff]
  intro op hop
  have hopmem := List.mem_filter.mp hop
  have hmem : ∀ (n : String) (kk : EKind), (n, kk) ∈ creationPairs z →
      entityName op = PyVal.vstr n → entityName op ∈ (z.filter isCreation).map entityName := by
    intro n kk hpmem hen
    rw [hfilt, List.map_map, hen]
    exact List.mem_map.mpr ⟨(n, kk), hpmem, entityName_creatorOf (n, kk)⟩
  rcases hops op hopmem.1 hopmem.2 with ⟨n, k, t, v, rfl, hd⟩ | ⟨n, t, v, rfl, hd⟩
  · rcases hd with hd | hd
    · exact absurd hd (by simp [List.lookup])
    · have := hmem n EKind.objK hd rfl
      simp [this]
  · rcases hd with hd | hd
    · exact absurd hd (by simp [List.lookup])
    · have := hmem n EKind.lstK hd rfl
      simp [this]

/-- The optimizer preserves well-formedness. -/
theorem wf_optimize (x : List Instr) (h : WFIR x) : WFIR (optimize_ir x) := by
  by_cases hx : x = []
  · subst hx
    exact h
  rw [optimize_ir_ne_nil x hx]
  have hz : wfFrom [] (remove_redundant_sets x) = true := by
    rw [remove_redundant_sets_eq]
    exact wfFrom_lastWriteFilter x [] h
  obtain ⟨hnd, _, hfilt, hops⟩ := wf_facts (remove_redundant_sets x) [] hz
  have hoth : (remove_redundant_sets x).filter isOther = [] := wf_no_other _ [] hz
  show wfFrom [] (group_instructions (remove_redundant_sets x)) = true
  rw [group_instructions_eq _ hoth, wf_orphans_nil _ hz, List.append_nil, hfilt]
  apply wf_grouped (creationPairs (remove_redundant_sets x)) []
    ((remove_redundant_sets x).filter isOperation) hnd
  · intro p _
    rfl
  · intro op hop
    have h2 := List.mem_filter.mp hop
    rcases hops op h2.1 h2.2 with ⟨n, k, t, v, rfl, hd⟩ | ⟨n, t, v, rfl, hd⟩
    · refine Or.inl ⟨n, k, t, v, rfl, ?_⟩
      rcases hd with hd | hd
      · exact absurd hd (by simp [List.lookup])
      · exact Or.inr hd
    · refine Or.inr ⟨n, t, v, rfl, ?_⟩
      rcases hd with hd | hd
      · exact absurd hd (by simp [List.lookup])
      · exact Or.inr hd

theorem optimize_createdKind (x : List Instr) (h : WFIR x) (n : String) :
    createdKind (optimize_ir x) n = createdKind x n := by
  by_cases hx : x = []
  · subst hx; rfl
  rw [optimize_ir_ne_nil x hx]
  have hz : wfFrom [] (remove_redundant_sets x) = true := by
    rw [remove_redundant_sets_eq]
    exact wfFrom_lastWriteFilter x [] h
  rw [createdKind_group _ (wf_no_other _ [] hz), createdKind_remove]

theorem optimize_lastSetTV (x : List Instr) (h : WFIR x) (n k : String) :
    lastSetTV (optimize_ir x) n k = lastSetTV x n k := by
  by_cases hx : x = []
  · subst hx; rfl
  rw [optimize_ir_ne_nil x hx]
  have hz : wfFrom [] (remove_redundant_sets x) = true := by
    rw [remove_redundant_sets_eq]
    exact wfFrom_lastWriteFilter x [] h
  have hgood : goodSets (remove_redundant_sets x) := by
    rw [remove_redundant_sets_eq]
    exact lastWriteFilter_goodSets x
  have hperm := group_instructions_perm_of_nodup (remove_redundant_sets x)
    (wf_nodup_entityNames _ hz)
  rw [lastSetTV_perm_of_unique hperm hgood n k, remove_redundant_sets_eq,
    lastSetTV_lastWriteFilter]

theorem optimize_appendsTV (x : List Instr) (h : WFIR x) (n : String) :
    appendsTV (optimize_ir x) n = appendsTV x n := by
  by_cases hx : x = []
  · subst hx; rfl
  rw [optimize_ir_ne_nil x hx]
  have hz : wfFrom [] (remove_redundant_sets x) = true := by
    rw [remove_redundant_sets_eq]
    exact wfFrom_lastWriteFilter x [] h
  rw [appendsTV_group _ (wf_no_other _ [] hz) (wf_nodup_entityNames _ hz),
    remove_redundant_sets_eq, appendsTV_lastWriteFilter]

def cexC1 : List Instr :=
  [mkCreateObject "o",
   mkSetProperty "o" "k" (.vstr "NUMBER") (.vint 1),
   mkCreateObject "o"]

/-- C1 (amended): on every well-formed IR sequence (each entity created once
with the documented argument shapes, every write after its creation with the
matching kind), replaying the optimizer output through the emitter succeeds
and yields the same final program state as replaying the input: per object
the same (valueType, nativeValue) for every property key, per list the same
elements in the same order. -/
theorem claim_C1 (x : List Instr) (h : WFIR x) :
    replayEquivB (optimize_ir x) x = true := by
  obtain ⟨e2, hrep2, hchar2⟩ := replay_char x h
  obtain ⟨e1, hrep1, hchar1⟩ := replay_char (optimize_ir x) (wf_optimize x h)
  unfold replayEquivB
  rw [hrep1, hrep2]
  show envMatches e1 e2 = true
  unfold envMatches
  rw [List.all_eq_true]
  intro n _
  cases hcx : createdKind x n with
  | none =>
    have h1 := (hchar1 n).2.2 (by rw [optimize_createdKind x h n, hcx])
    have h2 := (hchar2 n).2.2 hcx
    rw [h1, h2]
  | some kind =>
    cases kind with
    | objK =>
      obtain ⟨p, hp, hpk⟩ := (hchar1 n).1 (by rw [optimize_createdKind x h n, hcx])
      obtain ⟨q, hq, hqk⟩ := (hchar2 n).1 hcx
      rw [hp, hq]
      show valueMatches (.obj p) (.obj q) = true
      unfold valueMatches propsMatch
      rw [List.all_eq_true]
      intro k _
      rw [hpk k, hqk k, optimize_lastSetTV x h n k]
      simp
    | lstK =>
      have h1 := (hchar1 n).2.1 (by rw [optimize_createdKind x h n, hcx])
      have h2 := (hchar2 n).2.1 hcx
      rw [h1, h2]
      show valueMatches (.lst (appendsTV (optimize_ir x) n)) (.lst (appendsTV x n)) = true
      unfold valueMatches
      rw [optimize_appendsTV x h n]
      simp

/-- C1 counterexample: with a duplicated creation (still only the four known
opcodes), the grouped output replays to a different final state: the input
leaves object o empty (re-created last), the output re-runs the write after
the second creation. -/
theorem claim_C1_counterexample : replayEquivB (optimize_ir cexC1) cexC1 = false := by
  decide

/-- Witness for C1 at a concrete well-formed input. -/
theorem claim_C1_witness : replayEquivB (optimize_ir exC2in) exC2in = true :=
  claim_C1 exC2in (show wfFrom [] exC2in = true by decide)

/-! Embedding of `src/analyzer_core.py`: symbol table, semantic analyzer,
IR builder, JSON builder and the orchestration in `analyze_and_transform`.
Lexing and parsing are external (ANTLR); the parse tree arrives as a list of
command subtrees and the externally accumulated lexical/syntactic error
counts arrive as numbers. -/

/-- A `valor` production context: which literal token alternative matched,
carrying the raw token text.  The external grammar guarantees exactly these
five alternatives (so `get_value_type`'s UNKNOWN fallback is unreachable). -/
inductive ValorCtx where
  | vstring (text : String)
  | ventero (text : String)
  | vdecimal (text : String)
  | vverdadero
  | vfalso
deriving DecidableEq, Repr

/-- `get_value_type` of analyzer_core.py. -/
def get_value_type : ValorCtx → String
  | .vstring _ => "STRING"
  | .ventero _ => "NUMBER"
  | .vdecimal _ => "NUMBER"
  | .vverdadero => "BOOLEAN"
  | .vfalso => "BOOLEAN"

/-- Python `text[1:-1]`: drop the first and last character. -/
def pyStripEnds (s : String) : String :=
  ((s.data.drop 1).dropLast).asString

/-- Python `int(text)` on the decimal integer literals the grammar
produces, totalised with 0 on non-numeric text (unreachable here). -/
def pyParseInt (s : String) : Int :=
  s.toInt?.getD 0

/-- The native Python value a literal decodes to: the common body of
`IRBuilderListener.exitPropiedad` / `exitValor` (and of
`JsonBuilderListener.exitValor`): `getText()[1:-1]` for STRING (quotes
stripped, nothing else), `int(...)` / `float(...)` for numbers,
`True`/`False` for the boolean keywords. -/
def valor_nativo : ValorCtx → PyVal
  | .vstring text => .vstr (pyStripEnds text)
  | .ventero text => .vint (pyParseInt text)
  | .vdecimal text => .vfloat text
  | .vverdadero => .vbool true
  | .vfalso => .vbool false

/-- A top-level command subtree, with the start token's line and (0-indexed)
column. -/
inductive Command where
  | crearObjeto (nombre : String) (linea columna : Nat)
      (propiedades : List (String × ValorCtx))
  | crearLista (nombre : String) (linea columna : Nat) (items : List ValorCtx)
deriving DecidableEq, Repr

/-- The declared name of a command. -/
def cmdName : Command → String
  | .crearObjeto n _ _ _ => n
  | .crearLista n _ _ _ => n

/-- Metadata of a symbol entry: a property-type dict for objects, an
element-type list for lists. -/
inductive Metadatos where
  | propiedades (props : List (String × String))
  | tipos_elementos (tipos : List String)
deriving DecidableEq, Repr

/-- `SymbolEntry` of analyzer_core.py. -/
structure SymbolEntry where
  nombre : String
  tipo_entidad : String
  linea : Nat
  columna : Nat
  metadatos : Metadatos
deriving DecidableEq, Repr

/-- `SymbolTable` of analyzer_core.py (`symbols` is an insertion-ordered
Python dict). -/
structure SymbolTable where
  symbols : List (String × SymbolEntry)
deriving DecidableEq, Repr

/-- The fixed reserved-word set. -/
def reserved_words : List String :=
  ["CREAR", "OBJETO", "LISTA", "CON", "ELEMENTOS", "VERDADERO", "FALSO"]

/-- Python `str.upper` on the ASCII identifiers and keywords this language
uses. -/
def pyUpper (s : String) : String :=
  (s.data.map Char.toUpper).asString

/-- `SymbolTable.is_reserved`: case-insensitive membership test. -/
def SymbolTable.is_reserved (_ : SymbolTable) (nombre : String) : Bool :=
  reserved_words.contains (pyUpper nombre)

/-- `SymbolTable.lookup`. -/
def SymbolTable.lookup (st : SymbolTable) (nombre : String) : Option SymbolEntry :=
  st.symbols.lookup nombre

/-- `SymbolTable.declare`: fail (returning the table unchanged) when the
name exists, insert a fresh entry otherwise. -/
def SymbolTable.declare (st : SymbolTable) (nombre tipo_entidad : String)
    (linea columna : Nat) (metadatos : Metadatos) : Bool × SymbolTable :=
  if (st.symbols.lookup nombre).isSome then (false, st)
  else (true, ⟨st.symbols ++ [(nombre, ⟨nombre, tipo_entidad, linea, columna, metadatos⟩)]⟩)

/-- `CustomErrorListener`: per-kind counters and the ordered message list. -/
structure CustomErrorListener where
  source_name : String
  lexer_errors : Nat
  parser_errors : Nat
  semantic_errors : Nat
  error_messages : List String
deriving DecidableEq, Repr

/-- `add_semantic_error`: bump the counter and append the formatted
Spanish message. -/
def CustomErrorListener.add_semantic_error (el : CustomErrorListener)
    (line column : Nat) (message : String) : CustomErrorListener :=
  let src := el.source_name
  { el with
    semantic_errors := el.semantic_errors + 1,
    error_messages := el.error_messages ++
      [s!"Error Semántico en '{src}' (Línea {line}:Columna {column}): {message}"] }

/-- `get_total_errors`. -/
def CustomErrorListener.get_total_errors (el : CustomErrorListener) : Nat :=
  el.lexer_errors + el.parser_errors + el.semantic_errors

/-- A fresh listener, as built at the start of `analyze_and_transform`
before lexing (counters still zero). -/
def freshListener (source_name : String) : CustomErrorListener :=
  ⟨source_name, 0, 0, 0, []⟩

/-- The SEM002 message text. -/
def mensajeReservada (nombre : String) : String :=
  s!"El nombre '{nombre}' es una palabra reservada del lenguaje y no puede usarse como identificador."

/-- The SEM001 message text. -/
def mensajeRedefinicion (nombre : String) (entry_prev : SymbolEntry) : String :=
  let tipo := entry_prev.tipo_entidad
  let lin := entry_prev.linea
  s!"Redefinición del símbolo '{nombre}'. Ya fue declarado como '{tipo}' en la línea {lin}."

/-- `SemanticAnalyzer` walk state. -/
structure SemanticAnalyzer where
  error_listener : CustomErrorListener
  symbol_table : SymbolTable
  current_symbol_name : Option String
deriving DecidableEq, Repr

/-- `enterCrear_objeto_cmd`: reserved-word check, then declaration with
redefinition diagnostics; 0-indexed column shifted by one. -/
def SemanticAnalyzer.enterCrear_objeto_cmd (sa : SemanticAnalyzer)
    (nombre : String) (linea columna0 : Nat) : SemanticAnalyzer :=
  let linea := linea
  let columna := columna0 + 1
  if sa.symbol_table.is_reserved nombre then
    { sa with
      error_listener := sa.error_listener.add_semantic_error linea columna
        (mensajeReservada nombre),
      current_symbol_name := none }
  else
    let dr := sa.symbol_table.declare nombre "objeto" linea columna
      (Metadatos.propiedades [])
    if dr.1 then
      { sa with symbol_table := dr.2, current_symbol_name := some nombre }
    else
      match sa.symbol_table.lookup nombre with
      | some entry_prev =>
        { sa with
          error_listener := sa.error_listener.add_semantic_error linea columna
            (mensajeRedefinicion nombre entry_prev),
          current_symbol_name := none }
      | none => { sa with current_symbol_name := none }

/-- `enterCrear_lista_cmd`: same protocol with list metadata. -/
def SemanticAnalyzer.enterCrear_lista_cmd (sa : SemanticAnalyzer)
    (nombre : String) (linea columna0 : Nat) : SemanticAnalyzer :=
  let linea := linea
  let columna := columna0 + 1
  if sa.symbol_table.is_reserved nombre then
    { sa with
      error_listener := sa.error_listener.add_semantic_error linea columna
        (mensajeReservada nombre),
      current_symbol_name := none }
  else
    let dr := sa.symbol_table.declare nombre "lista" linea columna
      (Metadatos.tipos_elementos [])
    if dr.1 then
      { sa with symbol_table := dr.2, current_symbol_name := some nombre }
    else
      match sa.symbol_table.lookup nombre with
      | some entry_prev =>
        { sa with
          error_listener := sa.error_listener.add_semantic_error linea columna
            (mensajeRedefinicion nombre entry_prev),
          current_symbol_name := none }
      | none => { sa with current_symbol_name := none }

/-- `enterPropiedad`: record the property key's value type in the current
object's metadata (in-place dict assignment). -/
def SemanticAnalyzer.enterPropiedad (sa : SemanticAnalyzer)
    (clave : String) (valor : ValorCtx) : SemanticAnalyzer :=
  match sa.current_symbol_name with
  | some nom =>
    match sa.symbol_table.lookup nom with
    | some entry =>
      if entry.tipo_entidad = "objeto" then
        match entry.metadatos with
        | .propiedades props =>
          { sa with symbol_table := ⟨dictSet sa.symbol_table.symbols nom
              { entry with metadatos :=
                  .propiedades (dictSet props clave (get_value_type valor)) }⟩ }
        | .tipos_elementos _ => sa
      else sa
    | none => sa
  | none => sa

/-- `enterValor`: while the current entity is a list, append the element's
value type (in-place list append). -/
def SemanticAnalyzer.enterValor (sa : SemanticAnalyzer) (valor : ValorCtx) :
    SemanticAnalyzer :=
  match sa.current_symbol_name with
  | some nom =>
    match sa.symbol_table.lookup nom with
    | some entry =>
      if entry.tipo_entidad = "lista" then
        match entry.metadatos with
        | .tipos_elementos tipos =>
          { sa with symbol_table := ⟨dictSet sa.symbol_table.symbols nom
              { entry with metadatos :=
                  .tipos_elementos (tipos ++ [get_value_type valor]) }⟩ }
        | .propiedades _ => sa
      else sa
    | none => sa
  | none => sa

/-- The walker's enter/exit sequence over one command: command enter, then
the child productions in order (a property fires `enterPropiedad` and then
`enterValor` on its value; a list item fires `enterValor`), then the
unconditional reset on command exit. -/
def runSemanticCmd (sa : SemanticAnalyzer) : Command → SemanticAnalyzer
  | .crearObjeto nombre linea columna props =>
    let sa1 := sa.enterCrear_objeto_cmd nombre linea columna
    let sa2 := props.foldl (fun s p => (s.enterPropiedad p.1 p.2).enterValor p.2) sa1
    { sa2 with current_symbol_name := none }
  | .crearLista nombre linea columna items =>
    let sa1 := sa.enterCrear_lista_cmd nombre linea columna
    let sa2 := items.foldl (fun s v => s.enterValor v) sa1
    { sa2 with current_symbol_name := none }

/-- The semantic-analysis walk over a parsed program. -/
def runSemantic (el : CustomErrorListener) (st : SymbolTable)
    (cmds : List Command) : SemanticAnalyzer :=
  cmds.foldl runSemanticCmd ⟨el, st, none⟩

/-- `IRBuilderListener` state. -/
structure IRBuilderListener where
  ir_instructions : List Instr
  current_obj_name : Option String
  current_list_name : Option String
deriving DecidableEq, Repr

/-- `IRBuilderListener.exitPropiedad`. -/
def IRBuilderListener.exitPropiedad (b : IRBuilderListener)
    (clave : String) (valor : ValorCtx) : IRBuilderListener :=
  match b.current_obj_name with
  | some nom =>
    { b with ir_instructions := b.ir_instructions ++
        [⟨"IR_SET_PROPERTY",
          [.vstr nom, .vstr clave, .vstr (get_value_type valor), valor_nativo valor]⟩] }
  | none => b

/-- `IRBuilderListener.exitValor` in the only case where it appends: the
value's parent production is `items_lista` (for a property's value the
`isinstance` check fails and nothing is emitted, so those calls are not
modelled). -/
def IRBuilderListener.exitValorItem (b : IRBuilderListener) (valor : ValorCtx) :
    IRBuilderListener :=
  match b.current_list_name with
  | some nom =>
    { b with ir_instructions := b.ir_instructions ++
        [⟨"IR_APPEND_LIST",
          [.vstr nom, .vstr (get_value_type valor), valor_nativo valor]⟩] }
  | none => b

/-- The IR-building walk over one command. -/
def runIRCmd (b : IRBuilderListener) : Command → IRBuilderListener
  | .crearObjeto nombre _ _ props =>
    let b1 := { b with
      ir_instructions := b.ir_instructions ++ [Instr.mk "IR_CREATE_OBJECT" [.vstr nombre]],
      current_obj_name := some nombre }
    let b2 := props.foldl (fun s p => s.exitPropiedad p.1 p.2) b1
    { b2 with current_obj_name := none }
  | .crearLista nombre _ _ items =>
    let b1 := { b with
      ir_instructions := b.ir_instructions ++ [Instr.mk "IR_CREATE_LIST" [.vstr nombre]],
      current_list_name := some nombre }
    let b2 := items.foldl (fun s v => s.exitValorItem v) b1
    { b2 with current_list_name := none }

/-- `get_instructions` after walking the whole program. -/
def runIRBuilder (cmds : List Command) : List Instr :=
  (cmds.foldl runIRCmd ⟨[], none, none⟩).ir_instructions

/-- The direct-JSON value of an entity. -/
inductive JsonVal where
  | jobj (props : List (String × PyVal))
  | jlst (items : List PyVal)
deriving DecidableEq, Repr

/-- `JsonBuilderListener` over one command: the completed object or list is
stored into `result_data` on command exit. -/
def runJsonCmd (data : List (String × JsonVal)) : Command → List (String × JsonVal)
  | .crearObjeto nombre _ _ props =>
    dictSet data nombre
      (.jobj (props.foldl (fun acc p => dictSet acc p.1 (valor_nativo p.2)) []))
  | .crearLista nombre _ _ items =>
    dictSet data nombre (.jlst (items.map valor_nativo))

/-- The JSON-building walk (`result_data` serialised by `json.dumps` is
modelled by the data itself: only its presence or absence matters here). -/
def runJsonBuilder (cmds : List Command) : List (String × JsonVal) :=
  cmds.foldl runJsonCmd []

/-- The outputs of `analyze_and_transform` the claims are about. -/
structure AnalyzeResult where
  json_output : Option (List (String × JsonVal))
  errores_lexicos : Nat
  errores_sintacticos : Nat
  errores_semanticos : Nat
  symbols_debug : List (String × (String × Metadatos))
  ir : List Instr
deriving Repr

/-- The body of `analyze_and_transform` once a parse tree exists.  Semantic
analysis runs only on a clean lex/parse; IR building + optimization and
JSON building run only with zero semantic errors; otherwise
`json_output_string` stays `None` and `ir_output` stays `[]`. -/
def analyze_post_parse (source_name : String) (lexErrors parserErrors : Nat)
    (cmds : List Command) : AnalyzeResult :=
  if (CustomErrorListener.mk source_name lexErrors parserErrors 0
      []).get_total_errors == 0 then
      if (runSemantic (CustomErrorListener.mk source_name lexErrors parserErrors 0 [])
          ⟨[]⟩ cmds).error_listener.semantic_errors == 0 then
        ⟨some (runJsonBuilder cmds), lexErrors, parserErrors,
          (runSemantic (CustomErrorListener.mk source_name lexErrors parserErrors 0 [])
            ⟨[]⟩ cmds).error_listener.semantic_errors,
          ((runSemantic (CustomErrorListener.mk source_name lexErrors parserErrors 0 [])
            ⟨[]⟩ cmds).symbol_table.symbols.map
              (fun p => (p.1, (p.2.tipo_entidad, p.2.metadatos)))),
          optimize_ir (runIRBuilder cmds)⟩
      else
        ⟨none, lexErrors, parserErrors,
          (runSemantic (CustomErrorListener.mk source_name lexErrors parserErrors 0 [])
            ⟨[]⟩ cmds).error_listener.semantic_errors,
          ((runSemantic (CustomErrorListener.mk source_name lexErrors parserErrors 0 [])
            ⟨[]⟩ cmds).symbol_table.symbols.map
              (fun p => (p.1, (p.2.tipo_entidad, p.2.metadatos)))), []⟩
  else ⟨none, lexErrors, parserErrors, 0, [], []⟩

/-- `analyze_and_transform` from the point where lexing and parsing are
done: `lexErrors`/`parserErrors` are the externally accumulated counts and
`tree` the parse result (`none` when no tree was produced). -/
def analyze_and_transform (source_name : String) (lexErrors parserErrors : Nat)
    (tree : Option (List Command)) : AnalyzeResult :=
  match tree with
  | some cmds => analyze_post_parse source_name lexErrors parserErrors cmds
  | none => ⟨none, lexErrors, parserErrors, 0, [], []⟩

/-! Preservation facts for the walker steps inside a command body. -/

/-- What a property/element walker step preserves: the diagnostics, the
current entity, every other name's binding, and presence of every name. -/
def StepFacts (sa sa' : SemanticAnalyzer) : Prop :=
  sa'.error_listener = sa.error_listener ∧
  sa'.current_symbol_name = sa.current_symbol_name ∧
  (∀ q : String, sa.current_symbol_name ≠ some q →
    sa'.symbol_table.symbols.lookup q = sa.symbol_table.symbols.lookup q) ∧
  (∀ q : String, (sa.symbol_table.symbols.lookup q).isSome = true →
    (sa'.symbol_table.symbols.lookup q).isSome = true)

theorem stepFacts_rfl (sa : SemanticAnalyzer) : StepFacts sa sa :=
  ⟨rfl, rfl, fun _ _ => rfl, fun _ h => h⟩

theorem stepFacts_trans {a b c : SemanticAnalyzer}
    (h1 : StepFacts a b) (h2 : StepFacts b c) : StepFacts a c := by
  obtain ⟨e1, c1, l1, s1⟩ := h1
  obtain ⟨e2, c2, l2, s2⟩ := h2
  refine ⟨e2.trans e1, c2.trans c1, ?_, ?_⟩
  · intro q hq
    have hb : b.current_symbol_name ≠ some q := by rw [c1]; exact hq
    exact (l2 q hb).trans (l1 q hq)
  · intro q hq
    exact s2 q (s1 q hq)

/-- The dict-update branch common to `enterPropiedad` and `enterValor`. -/
theorem stepFacts_dictSet (sa : SemanticAnalyzer) (nom : String)
    (e : SymbolEntry) (hcur : sa.current_symbol_name = some nom) :
    StepFacts sa { sa with symbol_table := ⟨dictSet sa.symbol_table.symbols nom e⟩ } := by
  refine ⟨rfl, rfl, ?_, ?_⟩
  · intro q hq
    have hqn : q ≠ nom := by
      intro he
      exact hq (by rw [hcur, he])
    exact lookup_dictSet_other _ nom e q hqn
  · intro q hq
    rw [show (({ sa with symbol_table := ⟨dictSet sa.symbol_table.symbols nom e⟩ } :
        SemanticAnalyzer).symbol_table.symbols) = dictSet sa.symbol_table.symbols nom e
      from rfl]
    rw [lookup_dictSet _ nom e q]
    by_cases hqe : q = nom
    · rw [if_pos hqe]; rfl
    · rw [if_neg hqe]; exact hq

theorem enterPropiedad_facts (sa : SemanticAnalyzer) (clave : String)
    (valor : ValorCtx) : StepFacts sa (sa.enterPropiedad clave valor) := by
  unfold SemanticAnalyzer.enterPropiedad
  split
  next nom hcur =>
    split
    next entry hlk =>
      split
      next htipo =>
        split
        next props hm => exact stepFacts_dictSet sa nom _ hcur
        next hm => exact stepFacts_rfl sa
      next htipo => exact stepFacts_rfl sa
    next hlk => exact stepFacts_rfl sa
  next hcur => exact stepFacts_rfl sa

theorem enterValor_facts (sa : SemanticAnalyzer) (valor : ValorCtx) :
    StepFacts sa (sa.enterValor valor) := by
  unfold SemanticAnalyzer.enterValor
  split
  next nom hcur =>
    split
    next entry hlk =>
      split
      next htipo =>
        split
        next tipos hm => exact stepFacts_dictSet sa nom _ hcur
        next hm => exact stepFacts_rfl sa
      next htipo => exact stepFacts_rfl sa
    next hlk => exact stepFacts_rfl sa
  next hcur => exact stepFacts_rfl sa

theorem foldl_stepFacts {β : Type} (f : SemanticAnalyzer → β → SemanticAnalyzer)
    (hf : ∀ sa b, StepFacts sa (f sa b)) :
    ∀ (l : List β) (sa : SemanticAnalyzer), StepFacts sa (l.foldl f sa)
  | [], sa => stepFacts_rfl sa
  | b :: rest, sa =>
    stepFacts_trans (hf sa b) (foldl_stepFacts f hf rest (f sa b))

/-- The property loop of an object body preserves `StepFacts`. -/
theorem objBody_stepFacts (props : List (String × ValorCtx))
    (sa : SemanticAnalyzer) :
    StepFacts sa (props.foldl
      (fun s p => (s.enterPropiedad p.1 p.2).enterValor p.2) sa) :=
  foldl_stepFacts _
    (fun sa p => stepFacts_trans (enterPropiedad_facts sa p.1 p.2)
      (enterValor_facts _ p.2)) props sa

/-- The element loop of a list body preserves `StepFacts`. -/
theorem listBody_stepFacts (items : List ValorCtx) (sa : SemanticAnalyzer) :
    StepFacts sa (items.foldl (fun s v => s.enterValor v) sa) :=
  foldl_stepFacts _ (fun sa v => enterValor_facts sa v) items sa

/-- The fresh-name declaration path of `enterCrear_objeto_cmd`. -/
theorem enterObj_success (sa : SemanticAnalyzer) (n : String) (l c : Nat)
    (hres : sa.symbol_table.is_reserved n = false)
    (hlk : sa.symbol_table.symbols.lookup n = none) :
    sa.enterCrear_objeto_cmd n l c =
      { sa with
        symbol_table := ⟨sa.symbol_table.symbols ++
          [(n, ⟨n, "objeto", l, c + 1, Metadatos.propiedades []⟩)]⟩,
        current_symbol_name := some n } := by
  unfold SemanticAnalyzer.enterCrear_objeto_cmd
  rw [if_neg (by rw [hres]; exact Bool.false_ne_true)]
  simp only [SymbolTable.declare, hlk, Option.isSome_none, Bool.false_eq_true,
    if_false, if_true]

/-- The fresh-name declaration path of `enterCrear_lista_cmd`. -/
theorem enterLst_success (sa : SemanticAnalyzer) (n : String) (l c : Nat)
    (hres : sa.symbol_table.is_reserved n = false)
    (hlk : sa.symbol_table.symbols.lookup n = none) :
    sa.enterCrear_lista_cmd n l c =
      { sa with
        symbol_table := ⟨sa.symbol_table.symbols ++
          [(n, ⟨n, "lista", l, c + 1, Metadatos.tipos_elementos []⟩)]⟩,
        current_symbol_name := some n } := by
  unfold SemanticAnalyzer.enterCrear_lista_cmd
  rw [if_neg (by rw [hres]; exact Bool.false_ne_true)]
  simp only [SymbolTable.declare, hlk, Option.isSome_none, Bool.false_eq_true,
    if_false, if_true]

/-- The redefinition path of `enterCrear_objeto_cmd`: one more semantic
diagnostic, table untouched, no current entity. -/
theorem enterObj_fail (sa : SemanticAnalyzer) (n : String) (l c : Nat)
    (hres : sa.symbol_table.is_reserved n = false)
    (hsome : (sa.symbol_table.symbols.lookup n).isSome = true) :
    (sa.enterCrear_objeto_cmd n l c).error_listener.semantic_errors =
      sa.error_listener.semantic_errors + 1 ∧
    (sa.enterCrear_objeto_cmd n l c).symbol_table = sa.symbol_table ∧
    (sa.enterCrear_objeto_cmd n l c).current_symbol_name = none := by
  unfold SemanticAnalyzer.enterCrear_objeto_cmd
  rw [if_neg (by rw [hres]; exact Bool.false_ne_true)]
  obtain ⟨entry, he⟩ := Option.isSome_iff_exists.mp hsome
  simp only [SymbolTable.declare, hsome, if_true, SymbolTable.lookup, he,
    CustomErrorListener.add_semantic_error]
  exact ⟨rfl, rfl, rfl⟩

/-- The redefinition path of `enterCrear_lista_cmd`. -/
theorem enterLst_fail (sa : SemanticAnalyzer) (n : String) (l c : Nat)
    (hres : sa.symbol_table.is_reserved n = false)
    (hsome : (sa.symbol_table.symbols.lookup n).isSome = true) :
    (sa.enterCrear_lista_cmd n l c).error_listener.semantic_errors =
      sa.error_listener.semantic_errors + 1 ∧
    (sa.enterCrear_lista_cmd n l c).symbol_table = sa.symbol_table ∧
    (sa.enterCrear_lista_cmd n l c).current_symbol_name = none := by
  unfold SemanticAnalyzer.enterCrear_lista_cmd
  rw [if_neg (by rw [hres]; exact Bool.false_ne_true)]
  obtain ⟨entry, he⟩ := Option.isSome_iff_exists.mp hsome
  simp only [SymbolTable.declare, hsome, if_true, SymbolTable.lookup, he,
    CustomErrorListener.add_semantic_error]
  exact ⟨rfl, rfl, rfl⟩

/-- Processing one command whose name is new and not reserved: no new
diagnostics, the name becomes bound, every other binding is untouched,
and the walk leaves no current entity. -/
theorem runSemanticCmd_success (sa : SemanticAnalyzer) (cmd : Command)
    (hres : sa.symbol_table.is_reserved (cmdName cmd) = false)
    (hlk : sa.symbol_table.symbols.lookup (cmdName cmd) = none) :
    (runSemanticCmd sa cmd).error_listener = sa.error_listener ∧
    ((runSemanticCmd sa cmd).symbol_table.symbols.lookup (cmdName cmd)).isSome = true ∧
    (∀ q, q ≠ cmdName cmd →
      (runSemanticCmd sa cmd).symbol_table.symbols.lookup q =
        sa.symbol_table.symbols.lookup q) ∧
    (runSemanticCmd sa cmd).current_symbol_name = none := by
  cases cmd with
  | crearObjeto n l c props =>
    have hrw : runSemanticCmd sa (Command.crearObjeto n l c props) =
        { props.foldl (fun s p => (s.enterPropiedad p.1 p.2).enterValor p.2)
            (sa.enterCrear_objeto_cmd n l c) with current_symbol_name := none } := rfl
    rw [hrw]
    rw [enterObj_success sa n l c hres hlk]
    set saE : SemanticAnalyzer :=
      { sa with
        symbol_table := ⟨sa.symbol_table.symbols ++
          [(n, ⟨n, "objeto", l, c + 1, Metadatos.propiedades []⟩)]⟩,
        current_symbol_name := some n } with hsaE
    obtain ⟨hfe, hfc, hfl, hfs⟩ := objBody_stepFacts props saE
    refine ⟨hfe, ?_, ?_, rfl⟩
    · apply hfs
      rw [hsaE]
      show ((sa.symbol_table.symbols ++ [(n, _)]).lookup n).isSome = true
      rw [lookup_append_single_self n _ _ hlk]
      rfl
    · intro q hq
      have hcur : saE.current_symbol_name ≠ some q := by
        rw [hsaE]
        intro he
        exact hq (Option.some.inj he).symm
      rw [hfl q hcur, hsaE]
      show (sa.symbol_table.symbols ++ [(n, _)]).lookup q = _
      exact lookup_append_single_other n _ q hq _
  | crearLista n l c items =>
    have hrw : runSemanticCmd sa (Command.crearLista n l c items) =
        { items.foldl (fun s v => s.enterValor v)
            (sa.enterCrear_lista_cmd n l c) with current_symbol_name := none } := rfl
    rw [hrw]
    rw [enterLst_success sa n l c hres hlk]
    set saE : SemanticAnalyzer :=
      { sa with
        symbol_table := ⟨sa.symbol_table.symbols ++
          [(n, ⟨n, "lista", l, c + 1, Metadatos.tipos_elementos []⟩)]⟩,
        current_symbol_name := some n } with hsaE
    obtain ⟨hfe, hfc, hfl, hfs⟩ := listBody_stepFacts items saE
    refine ⟨hfe, ?_, ?_, rfl⟩
    · apply hfs
      rw [hsaE]
      show ((sa.symbol_table.symbols ++ [(n, _)]).lookup n).isSome = true
      rw [lookup_append_single_self n _ _ hlk]
      rfl
    · intro q hq
      have hcur : saE.current_symbol_name ≠ some q := by
        rw [hsaE]
        intro he
        exact hq (Option.some.inj he).symm
      rw [hfl q hcur, hsaE]
      show (sa.symbol_table.symbols ++ [(n, _)]).lookup q = _
      exact lookup_append_single_other n _ q hq _

/-- With no current entity, `enterPropiedad` does nothing. -/
theorem enterPropiedad_none (sa : SemanticAnalyzer) (clave : String)
    (valor : ValorCtx) (h : sa.current_symbol_name = none) :
    sa.enterPropiedad clave valor = sa := by
  unfold SemanticAnalyzer.enterPropiedad
  split
  next nom hcur => rw [h] at hcur; exact absurd hcur (by simp)
  next hcur => rfl

/-- With no current entity, `enterValor` does nothing. -/
theorem enterValor_none (sa : SemanticAnalyzer) (valor : ValorCtx)
    (h : sa.current_symbol_name = none) : sa.enterValor valor = sa := by
  unfold SemanticAnalyzer.enterValor
  split
  next nom hcur => rw [h] at hcur; exact absurd hcur (by simp)
  next hcur => rfl

theorem foldl_none {β : Type} (f : SemanticAnalyzer → β → SemanticAnalyzer)
    (hf : ∀ sa b, sa.current_symbol_name = none → f sa b = sa) :
    ∀ (l : List β) (sa : SemanticAnalyzer),
      sa.current_symbol_name = none → l.foldl f sa = sa
  | [], _, _ => rfl
  | b :: rest, sa, h => by
    rw [List.foldl_cons, hf sa b h, foldl_none f hf rest sa h]

/-- Processing one command whose name is not reserved but already bound:
exactly one new semantic diagnostic and an untouched table. -/
theorem runSemanticCmd_dup (sa : SemanticAnalyzer) (cmd : Command)
    (hres : sa.symbol_table.is_reserved (cmdName cmd) = false)
    (hsome : (sa.symbol_table.symbols.lookup (cmdName cmd)).isSome = true) :
    (runSemanticCmd sa cmd).error_listener.semantic_errors =
      sa.error_listener.semantic_errors + 1 ∧
    (runSemanticCmd sa cmd).symbol_table = sa.symbol_table := by
  cases cmd with
  | crearObjeto n l c props =>
    obtain ⟨herr, htab, hcur⟩ := enterObj_fail sa n l c hres hsome
    have hrw : runSemanticCmd sa (Command.crearObjeto n l c props) =
        { props.foldl (fun s p => (s.enterPropiedad p.1 p.2).enterValor p.2)
            (sa.enterCrear_objeto_cmd n l c) with current_symbol_name := none } := rfl
    rw [hrw]
    rw [foldl_none _ (fun s p h => by
        rw [enterPropiedad_none s p.1 p.2 h, enterValor_none s p.2 h])
      props _ hcur]
    exact ⟨herr, htab⟩
  | crearLista n l c items =>
    obtain ⟨herr, htab, hcur⟩ := enterLst_fail sa n l c hres hsome
    have hrw : runSemanticCmd sa (Command.crearLista n l c items) =
        { items.foldl (fun s v => s.enterValor v)
            (sa.enterCrear_lista_cmd n l c) with current_symbol_name := none } := rfl
    rw [hrw]
    rw [foldl_none _ (fun s v h => enterValor_none s v h) items _ hcur]
    exact ⟨herr, htab⟩

/-- Two strings differ at most in letter case. -/
def sameModuloCaseB (s t : String) : Bool :=
  s.data.map Char.toUpper == t.data.map Char.toUpper

theorem pyUpper_eq_of_sameModuloCase {s t : String}
    (h : sameModuloCaseB s t = true) : pyUpper s = pyUpper t := by
  unfold sameModuloCaseB at h
  unfold pyUpper
  rw [eq_of_beq h]

theorem is_reserved_congr (st st' : SymbolTable) {a b : String}
    (h : pyUpper a = pyUpper b) : st.is_reserved a = st'.is_reserved b := by
  unfold SymbolTable.is_reserved
  rw [h]

/-- C6. `declare` on a name already present returns `false` with the table
unchanged, whatever kind is requested; hence a program declaring the same
non-reserved name twice (any combination of object/list commands) ends the
semantic walk with exactly one diagnostic and the same symbol table as the
program containing only the first declaration. -/
theorem claim_C6 (s : String) (c1 c2 : Command)
    (hname : cmdName c2 = cmdName c1)
    (hres : SymbolTable.is_reserved ⟨[]⟩ (cmdName c1) = false) :
    (∀ (st : SymbolTable) (tipo : String) (l c : Nat) (m : Metadatos) (n : String),
      (st.lookup n).isSome = true → st.declare n tipo l c m = (false, st)) ∧
    (runSemantic (freshListener s) ⟨[]⟩ [c1, c2]).error_listener.semantic_errors = 1 ∧
    (runSemantic (freshListener s) ⟨[]⟩ [c1, c2]).symbol_table =
      (runSemantic (freshListener s) ⟨[]⟩ [c1]).symbol_table := by
  refine ⟨?_, ?_⟩
  · intro st tipo l c m n h
    unfold SymbolTable.declare
    simp only [SymbolTable.lookup] at h
    rw [if_pos h]
  · have hinit : runSemantic (freshListener s) ⟨[]⟩ [c1, c2] =
        runSemanticCmd (runSemanticCmd ⟨freshListener s, ⟨[]⟩, none⟩ c1) c2 := rfl
    have hone : runSemantic (freshListener s) ⟨[]⟩ [c1] =
        runSemanticCmd ⟨freshListener s, ⟨[]⟩, none⟩ c1 := rfl
    set init : SemanticAnalyzer := ⟨freshListener s, ⟨[]⟩, none⟩ with hi
    obtain ⟨h1e, h1s, _, _⟩ := runSemanticCmd_success init c1
      (show init.symbol_table.is_reserved (cmdName c1) = false from hres)
      (show ([] : List (String × SymbolEntry)).lookup (cmdName c1) = none from rfl)
    set sa1 := runSemanticCmd init c1 with hs1
    obtain ⟨h2e, h2t⟩ := runSemanticCmd_dup sa1 c2
      (show sa1.symbol_table.is_reserved (cmdName c2) = false by
        rw [hname, is_reserved_congr sa1.symbol_table (⟨[]⟩ : SymbolTable) rfl]
        exact hres)
      (by rw [hname]; exact h1s)
    rw [hinit, hone]
    refine ⟨?_, h2t⟩
    rw [h2e, h1e]
    rfl

/-- Witness for C6: `usuario` declared as object on line 1 then as list on
line 2. -/
theorem claim_C6_witness :
    (∀ (st : SymbolTable) (tipo : String) (l c : Nat) (m : Metadatos) (n : String),
      (st.lookup n).isSome = true → st.declare n tipo l c m = (false, st)) ∧
    (runSemantic (freshListener "demo") ⟨[]⟩
      [Command.crearObjeto "usuario" 1 0 [("edad", ValorCtx.ventero "30")],
       Command.crearLista "usuario" 2 0 [ValorCtx.vverdadero]]).error_listener.semantic_errors = 1 ∧
    (runSemantic (freshListener "demo") ⟨[]⟩
      [Command.crearObjeto "usuario" 1 0 [("edad", ValorCtx.ventero "30")],
       Command.crearLista "usuario" 2 0 [ValorCtx.vverdadero]]).symbol_table =
    (runSemantic (freshListener "demo") ⟨[]⟩
      [Command.crearObjeto "usuario" 1 0 [("edad", ValorCtx.ventero "30")]]).symbol_table :=
  claim_C6 "demo"
    (Command.crearObjeto "usuario" 1 0 [("edad", ValorCtx.ventero "30")])
    (Command.crearLista "usuario" 2 0 [ValorCtx.vverdadero])
    rfl (by decide)

/-- C10. Reserved-word detection is case-insensitive: any letter-case
variant of a reserved word is flagged by `is_reserved` on any table.
Name uniqueness is case-sensitive: two command names that differ only in
letter case and are not reserved both declare successfully — the walk ends
with zero diagnostics and both names bound in the symbol table. -/
theorem claim_C10 :
    (∀ (s kw : String), kw ∈ reserved_words → sameModuloCaseB s kw = true →
      ∀ st : SymbolTable, st.is_reserved s = true) ∧
    (∀ (src : String) (d1 d2 : Command),
      sameModuloCaseB (cmdName d1) (cmdName d2) = true →
      cmdName d1 ≠ cmdName d2 →
      SymbolTable.is_reserved ⟨[]⟩ (cmdName d1) = false →
      (runSemantic (freshListener src) ⟨[]⟩ [d1, d2]).error_listener.semantic_errors = 0 ∧
      ((runSemantic (freshListener src) ⟨[]⟩ [d1, d2]).symbol_table.symbols.lookup
        (cmdName d1)).isSome = true ∧
      ((runSemantic (freshListener src) ⟨[]⟩ [d1, d2]).symbol_table.symbols.lookup
        (cmdName d2)).isSome = true) := by
  constructor
  · intro s kw hmem hsame st
    have hkw : pyUpper kw = kw := by fin_cases hmem <;> rfl
    unfold SymbolTable.is_reserved
    rw [pyUpper_eq_of_sameModuloCase hsame, hkw]
    exact List.elem_eq_true_of_mem hmem
  · intro src d1 d2 hsame hne hres
    have hinit : runSemantic (freshListener src) ⟨[]⟩ [d1, d2] =
        runSemanticCmd (runSemanticCmd ⟨freshListener src, ⟨[]⟩, none⟩ d1) d2 := rfl
    set init : SemanticAnalyzer := ⟨freshListener src, ⟨[]⟩, none⟩ with hi
    obtain ⟨h1e, h1s, h1o, _⟩ := runSemanticCmd_success init d1
      (show init.symbol_table.is_reserved (cmdName d1) = false from hres)
      (show ([] : List (String × SymbolEntry)).lookup (cmdName d1) = none from rfl)
    set sa1 := runSemanticCmd init d1 with hs1
    have hres2 : sa1.symbol_table.is_reserved (cmdName d2) = false := by
      rw [is_reserved_congr sa1.symbol_table ⟨[]⟩
        (pyUpper_eq_of_sameModuloCase hsame).symm]
      exact hres
    have hlk2 : sa1.symbol_table.symbols.lookup (cmdName d2) = none := by
      rw [h1o (cmdName d2) (fun he => hne he.symm)]
      rfl
    obtain ⟨h2e, h2s, h2o, _⟩ := runSemanticCmd_success sa1 d2 hres2 hlk2
    rw [hinit]
    refine ⟨?_, ?_, ?_⟩
    · rw [h2e, h1e]
      rfl
    · rw [h2o (cmdName d1) hne]
      exact h1s
    · exact h2s

/-- Witness for C10: `crear` (lower case) is reserved; `Usuario` and
`usuario` coexist with no diagnostic. -/
theorem claim_C10_witness :
    SymbolTable.is_reserved ⟨[]⟩ "crear" = true ∧
    ((runSemantic (freshListener "w") ⟨[]⟩
        [Command.crearObjeto "Usuario" 1 0 [],
         Command.crearLista "usuario" 2 0 []]).error_listener.semantic_errors = 0 ∧
     ((runSemantic (freshListener "w") ⟨[]⟩
        [Command.crearObjeto "Usuario" 1 0 [],
         Command.crearLista "usuario" 2 0 []]).symbol_table.symbols.lookup
        "Usuario").isSome = true ∧
     ((runSemantic (freshListener "w") ⟨[]⟩
        [Command.crearObjeto "Usuario" 1 0 [],
         Command.crearLista "usuario" 2 0 []]).symbol_table.symbols.lookup
        "usuario").isSome = true) :=
  ⟨claim_C10.1 "crear" "CREAR" (by decide) (by decide) ⟨[]⟩,
   claim_C10.2 "w" (Command.crearObjeto "Usuario" 1 0 [])
     (Command.crearLista "usuario" 2 0 []) (by decide) (by decide) (by decide)⟩

/-- C5. Whenever the analysis records at least one semantic diagnostic, the
pipeline yields no IR-consuming output: the JSON result is `none` and the
IR sequence is empty, however many valid commands precede the error. -/
theorem claim_C5 (source_name : String) (lexE parE : Nat)
    (tree : Option (List Command))
    (h : (analyze_and_transform source_name lexE parE tree).errores_semanticos ≥ 1) :
    (analyze_and_transform source_name lexE parE tree).json_output = none ∧
    (analyze_and_transform source_name lexE parE tree).ir = [] := by
  cases tree with
  | none =>
    have h0 : (1 : Nat) ≤ 0 := h
    omega
  | some cmds =>
    have h' : (analyze_post_parse source_name lexE parE cmds).errores_semanticos ≥ 1 := h
    suffices hs : (analyze_post_parse source_name lexE parE cmds).json_output = none ∧
        (analyze_post_parse source_name lexE parE cmds).ir = [] from hs
    clear h
    unfold analyze_post_parse at h' ⊢
    by_cases hA : ((CustomErrorListener.mk source_name lexE parE 0
        []).get_total_errors == 0) = true
    · rw [if_pos hA] at h' ⊢
      by_cases hB : ((runSemantic (CustomErrorListener.mk source_name lexE parE 0 [])
          ⟨[]⟩ cmds).error_listener.semantic_errors == 0) = true
      · rw [if_pos hB] at h'
        have hz := eq_of_beq hB
        have h1 : 1 ≤ (runSemantic (CustomErrorListener.mk source_name lexE parE 0 [])
            ⟨[]⟩ cmds).error_listener.semantic_errors := h'
        omega
      · rw [if_neg hB]
        exact ⟨rfl, rfl⟩
    · rw [if_neg hA] at h'
      have h0 : (1 : Nat) ≤ 0 := h'
      omega

/-- Witness for C5: a valid command followed by a redefinition. -/
theorem claim_C5_witness :
    (analyze_and_transform "demo" 0 0 (some
      [Command.crearObjeto "usuario" 1 0 [("nombre", ValorCtx.vstring "\x22Ana\x22")],
       Command.crearObjeto "usuario" 2 0 []])).json_output = none ∧
    (analyze_and_transform "demo" 0 0 (some
      [Command.crearObjeto "usuario" 1 0 [("nombre", ValorCtx.vstring "\x22Ana\x22")],
       Command.crearObjeto "usuario" 2 0 []])).ir = [] :=
  claim_C5 "demo" 0 0 (some
      [Command.crearObjeto "usuario" 1 0 [("nombre", ValorCtx.vstring "\x22Ana\x22")],
       Command.crearObjeto "usuario" 2 0 []]) (by decide)

/-- The property loop of the IR builder appends one SET_PROPERTY per
property, in order, while an object is current. -/
theorem exitPropiedad_fold (n : String) (props : List (String × ValorCtx)) :
    ∀ b : IRBuilderListener, b.current_obj_name = some n →
      (props.foldl (fun s p => s.exitPropiedad p.1 p.2) b).ir_instructions =
        b.ir_instructions ++ props.map (fun p => Instr.mk "IR_SET_PROPERTY"
          [.vstr n, .vstr p.1, .vstr (get_value_type p.2), valor_nativo p.2]) := by
  induction props with
  | nil => intro b hb; simp
  | cons p rest ih =>
    intro b hb
    rw [List.foldl_cons]
    have hstep : b.exitPropiedad p.1 p.2 =
        { b with ir_instructions := b.ir_instructions ++
            [Instr.mk "IR_SET_PROPERTY"
              [.vstr n, .vstr p.1, .vstr (get_value_type p.2), valor_nativo p.2]] } := by
      unfold IRBuilderListener.exitPropiedad
      rw [hb]
    rw [hstep, ih { b with ir_instructions := b.ir_instructions ++
        [Instr.mk "IR_SET_PROPERTY"
          [.vstr n, .vstr p.1, .vstr (get_value_type p.2), valor_nativo p.2]] } hb]
    simp [List.map_cons, List.append_assoc]

/-- The element loop of the IR builder appends one APPEND_LIST per item,
in order, while a list is current. -/
theorem exitValorItem_fold (n : String) (items : List ValorCtx) :
    ∀ b : IRBuilderListener, b.current_list_name = some n →
      (items.foldl (fun s v => s.exitValorItem v) b).ir_instructions =
        b.ir_instructions ++ items.map (fun v => Instr.mk "IR_APPEND_LIST"
          [.vstr n, .vstr (get_value_type v), valor_nativo v]) := by
  induction items with
  | nil => intro b hb; simp
  | cons v rest ih =>
    intro b hb
    rw [List.foldl_cons]
    have hstep : b.exitValorItem v =
        { b with ir_instructions := b.ir_instructions ++
            [Instr.mk "IR_APPEND_LIST"
              [.vstr n, .vstr (get_value_type v), valor_nativo v]] } := by
      unfold IRBuilderListener.exitValorItem
      rw [hb]
    rw [hstep, ih { b with ir_instructions := b.ir_instructions ++
        [Instr.mk "IR_APPEND_LIST"
          [.vstr n, .vstr (get_value_type v), valor_nativo v]] } hb]
    simp [List.map_cons, List.append_assoc]

/-- The IR emitted for a single object command. -/
theorem runIRBuilder_obj (n : String) (l c : Nat)
    (props : List (String × ValorCtx)) :
    runIRBuilder [Command.crearObjeto n l c props] =
      Instr.mk "IR_CREATE_OBJECT" [.vstr n] ::
        props.map (fun p => Instr.mk "IR_SET_PROPERTY"
          [.vstr n, .vstr p.1, .vstr (get_value_type p.2), valor_nativo p.2]) := by
  show (runIRCmd ⟨[], none, none⟩ (Command.crearObjeto n l c props)).ir_instructions = _
  have hrw : runIRCmd ⟨[], none, none⟩ (Command.crearObjeto n l c props) =
      { (props.foldl (fun s p => s.exitPropiedad p.1 p.2)
          (⟨[Instr.mk "IR_CREATE_OBJECT" [.vstr n]], some n, none⟩ :
            IRBuilderListener)) with
        current_obj_name := none } := rfl
  rw [hrw]
  show (props.foldl (fun s p => s.exitPropiedad p.1 p.2)
      (⟨[Instr.mk "IR_CREATE_OBJECT" [.vstr n]], some n, none⟩ :
        IRBuilderListener)).ir_instructions = _
  rw [exitPropiedad_fold n props _ rfl]
  rfl

/-- The IR emitted for a single list command. -/
theorem runIRBuilder_lst (n : String) (l c : Nat) (items : List ValorCtx) :
    runIRBuilder [Command.crearLista n l c items] =
      Instr.mk "IR_CREATE_LIST" [.vstr n] ::
        items.map (fun v => Instr.mk "IR_APPEND_LIST"
          [.vstr n, .vstr (get_value_type v), valor_nativo v]) := by
  show (runIRCmd ⟨[], none, none⟩ (Command.crearLista n l c items)).ir_instructions = _
  have hrw : runIRCmd ⟨[], none, none⟩ (Command.crearLista n l c items) =
      { (items.foldl (fun s v => s.exitValorItem v)
          (⟨[Instr.mk "IR_CREATE_LIST" [.vstr n]], none, some n⟩ :
            IRBuilderListener)) with
        current_list_name := none } := rfl
  rw [hrw]
  show (items.foldl (fun s v => s.exitValorItem v)
      (⟨[Instr.mk "IR_CREATE_LIST" [.vstr n]], none, some n⟩ :
        IRBuilderListener)).ir_instructions = _
  rw [exitValorItem_fold n items _ rfl]
  rfl

/-- One escape-resolution step on a character list: a backslash followed by
a character is replaced by the character that pair denotes. -/
def resolveEscList : List Char → List Char
  | [] => []
  | '\\' :: c :: rest =>
    (match c with
     | 'n' => '\n'
     | 't' => '\t'
     | 'r' => '\r'
     | c2 => c2) :: resolveEscList rest
  | c :: rest => c :: resolveEscList rest

/-- Modelled from the spec: the STRING decoding the claim describes — "the
literal with its enclosing quote characters stripped and escape sequences
resolved to the characters they denote".  The code in
`IRBuilderListener.exitPropiedad` / `exitValor` only strips the quotes
(`getText()[1:-1]`); no escape resolution happens anywhere in src. -/
def spec_decoded_string (text : String) : String :=
  (resolveEscList (pyStripEnds text).data).asString

/-- C8 (amended). The nativeValue recorded for a STRING literal is exactly
the literal text with its first and last characters removed — enclosing
quotes stripped, escape sequences left verbatim: every STRING property of
an object command yields `SET_PROPERTY` with that value, and every STRING
item of a list command yields `APPEND_LIST` with that value. -/
theorem claim_C8 :
    (∀ (n k : String) (l c : Nat) (props : List (String × ValorCtx)) (text : String),
      (k, ValorCtx.vstring text) ∈ props →
      Instr.mk "IR_SET_PROPERTY"
          [.vstr n, .vstr k, .vstr "STRING", .vstr (pyStripEnds text)] ∈
        runIRBuilder [Command.crearObjeto n l c props]) ∧
    (∀ (n : String) (l c : Nat) (items : List ValorCtx) (text : String),
      ValorCtx.vstring text ∈ items →
      Instr.mk "IR_APPEND_LIST" [.vstr n, .vstr "STRING", .vstr (pyStripEnds text)] ∈
        runIRBuilder [Command.crearLista n l c items]) := by
  constructor
  · intro n k l c props text hmem
    rw [runIRBuilder_obj n l c props]
    exact List.mem_cons_of_mem _ (List.mem_map_of_mem _ hmem)
  · intro n l c items text hmem
    rw [runIRBuilder_lst n l c items]
    exact List.mem_cons_of_mem _ (List.mem_map_of_mem _ hmem)

/-- Counterexample to C8 as stated: for the literal `"Hola \"Mundo\""`
(raw token text with backslash-escaped inner quotes) the recorded
nativeValue keeps the backslashes; it differs from the escape-resolved
string the claim describes. -/
theorem claim_C8_counterexample :
    runIRBuilder [Command.crearObjeto "mensaje" 1 0
        [("texto", ValorCtx.vstring "\x22Hola \\\x22Mundo\\\x22\x22")]] =
      [Instr.mk "IR_CREATE_OBJECT" [.vstr "mensaje"],
       Instr.mk "IR_SET_PROPERTY" [.vstr "mensaje", .vstr "texto", .vstr "STRING",
         .vstr "Hola \\\x22Mundo\\\x22"]] ∧
    "Hola \\\x22Mundo\\\x22" ≠ spec_decoded_string "\x22Hola \\\x22Mundo\\\x22\x22" := by
  constructor
  · decide
  · decide

/-- Witness for C8 at a concrete STRING property and list item. -/
theorem claim_C8_witness :
    Instr.mk "IR_SET_PROPERTY" [.vstr "m", .vstr "k", .vstr "STRING",
        .vstr (pyStripEnds "\x22abc\x22")] ∈
      runIRBuilder [Command.crearObjeto "m" 1 0 [("k", ValorCtx.vstring "\x22abc\x22")]] :=
  claim_C8.1 "m" "k" 1 0 [("k", ValorCtx.vstring "\x22abc\x22")] "\x22abc\x22"
    (by decide)

end NaturalToJson
